import Mathlib

/-!
Shallow embedding of the tree-construction and deduplication pass of
`src/app.js` (`processExcelToTreeJSON`, lines 44-113), the core logic of
the bt-helper repository, together with proofs about it.

Modelling conventions:
* a spreadsheet row is a `Row`: one optional string cell per hierarchy
  level (indexed by position in `hierarchyLevels`, whose five names are
  pairwise distinct) plus the seven optional metadata cells the source
  reads (`row.ID`, `row['Business Role']`, ...);
* JavaScript's `String.prototype.trim` is `jsTrim` (strip leading and
  trailing whitespace), written over character lists so that it evaluates
  by kernel reduction;
* `crypto.randomBytes(12).toString('hex')` is abstracted as an ambient id
  source `gen : Nat → String` consumed at a counter held in the build
  state: the n-th created node receives id `gen n`.  Properties that rely
  on ids being unique, non-empty, or free of the `':'` key separator take
  the corresponding assumption (`GoodGen`), true of 24-hex-digit ids;
* the JS `Map`s become association lists: `idMap` maps composite keys to
  ids, prepending on insert (keys are only inserted when absent, so
  first-match lookup agrees with `Map`); the separate `nodeMap` of the
  source holds the same node objects the output array holds, so it is
  represented by lookup over the output list (`linkChild` mutates the
  one node with the parent's id, as pushing on the shared object does).
-/

/-- The five fixed hierarchy level names of `src/app.js` lines 6-12. -/
def hierarchyLevels : List String :=
  ["L1 - Line of Business",
   "L2 - Process Group",
   "L3 - Scope Item",
   "L4 - Process Variant",
   "L5 - Process Step"]

/-- JavaScript `value.trim()`: drop leading and trailing whitespace. -/
def jsTrim (s : String) : String :=
  String.mk (((s.data.dropWhile Char.isWhitespace).reverse.dropWhile Char.isWhitespace).reverse)

/-- JavaScript truthiness of `previousLevelId : string | null`: `null` and
the empty string are falsy. -/
def jsTruthy : Option String → Bool
  | none => false
  | some s => !(s == "")

/-- The metadata fields copied onto a node at creation
(`src/app.js` lines 85-91), with their `|| default` fallbacks applied. -/
structure NodeMeta where
  fieldID : String
  businessRole : String
  fioriRecommendations : String
  insights : String
  stakeholders : String
  materiality : Int
  descriptionText : String
deriving Repr, DecidableEq

/-- One output node object (`src/app.js` lines 77-92).  The five spread
hierarchy fields are `levelFields`, aligned with `hierarchyLevels`. -/
structure Node where
  _id : String
  title : String
  _parent : String
  _child : List String
  levelFields : List String
  meta : NodeMeta
deriving Repr, DecidableEq

/-- One input row: an optional string cell per hierarchy level (aligned
with `hierarchyLevels` by position) and the optional metadata cells. -/
structure Row where
  levels : List (Option String)
  mID : Option String := none
  mBusinessRole : Option String := none
  mFiori : Option String := none
  mInsights : Option String := none
  mStakeholders : Option String := none
  mMateriality : Option Int := none
  mDescriptionText : Option String := none
deriving Repr, DecidableEq

/-- The builder's mutable state: the output array, the dedup index
`idMap`, and the position of the id source (how many ids were drawn). -/
structure BuildState where
  outputNodes : List Node
  idMap : List (String × String)
  counter : Nat
deriving Repr, DecidableEq

/-- `row[level]` for the level at position `idx` of `hierarchyLevels`. -/
def rowCell (row : Row) (idx : Nat) : Option String :=
  row.levels.getD idx none

/-- The composite deduplication key of `src/app.js` lines 67-69:
``previousLevelId ? `${level}:${value}:${previousLevelId}` : `${level}:${value}` ``. -/
def mkKey (level value : String) (prev : Option String) : String :=
  if jsTruthy prev then level ++ ":" ++ value ++ ":" ++ prev.getD ""
  else level ++ ":" ++ value

/-- The level fields spread into a node at creation (`src/app.js` line 83):
every hierarchy field empty except the node's own level. -/
def mkLevelFields (level value : String) : List String :=
  hierarchyLevels.map (fun l => if l = level then value else "")

/-- The metadata captured from a row (`src/app.js` lines 85-91). -/
def metaFromRow (row : Row) : NodeMeta :=
  { fieldID := row.mID.getD ""
    businessRole := row.mBusinessRole.getD ""
    fioriRecommendations := row.mFiori.getD ""
    insights := row.mInsights.getD ""
    stakeholders := row.mStakeholders.getD ""
    materiality := row.mMateriality.getD 0
    descriptionText := row.mDescriptionText.getD "" }

/-- The node object built at `src/app.js` lines 77-92. -/
def mkNode (nodeId value level : String) (prev : Option String) (row : Row) : Node :=
  { _id := nodeId
    title := value
    _parent := prev.getD ""
    _child := []
    levelFields := mkLevelFields level value
    meta := metaFromRow row }

/-- `src/app.js` lines 102-107: look the parent up by id and push the new
child id unless already present.  The `nodeMap` of the source holds the
same objects as the output array, so the update is performed on the
output list directly. -/
def linkChild (nodes : List Node) (pid cid : String) : List Node :=
  match nodes.find? (fun n => n._id == pid) with
  | none => nodes
  | some parentNode =>
    if parentNode._child.contains cid then nodes
    else nodes.map (fun n => if n._id == pid then { n with _child := n._child ++ [cid] } else n)

/-- One iteration of the inner `hierarchyLevels.forEach` of
`src/app.js` lines 58-112: skip empty cells, compute the composite key,
create the node when the key is new, and resolve `previousLevelId`. -/
def processLevel (gen : Nat → String) (row : Row) (st : BuildState)
    (prev : Option String) (idx : Nat) (level : String) : BuildState × Option String :=
  match rowCell row idx with
  | none => (st, prev)
  | some raw =>
    if jsTrim raw = "" then (st, prev)
    else
      let value := jsTrim raw
      let key := mkKey level value prev
      match st.idMap.lookup key with
      | some _ => (st, st.idMap.lookup key)
      | none =>
        let nodeId := gen st.counter
        let node := mkNode nodeId value level prev row
        let nodes1 := st.outputNodes ++ [node]
        let nodes2 := if jsTruthy prev then linkChild nodes1 (prev.getD "") nodeId else nodes1
        let st1 : BuildState :=
          { outputNodes := nodes2, idMap := (key, nodeId) :: st.idMap, counter := st.counter + 1 }
        (st1, st1.idMap.lookup key)

/-- The fold step running `processLevel` on one `(index, level)` pair. -/
def levelStep (gen : Nat → String) (row : Row) (acc : BuildState × Option String)
    (p : Nat × String) : BuildState × Option String :=
  processLevel gen row acc.1 acc.2 p.1 p.2

/-- One iteration of the outer `rawData.forEach` of `src/app.js`
lines 54-113: `previousLevelId` starts at `null`, then the five levels
are processed in ascending rank order. -/
def processRow (gen : Nat → String) (st : BuildState) (row : Row) : BuildState :=
  (hierarchyLevels.enum.foldl (levelStep gen row) (st, (none : Option String))).1

/-- The empty initial state of a build (`src/app.js` lines 44-51). -/
def initState : BuildState := { outputNodes := [], idMap := [], counter := 0 }

/-- The whole build pass over the row sequence. -/
def buildState (gen : Nat → String) (rows : List Row) : BuildState :=
  rows.foldl (processRow gen) initState

/-- The output node sequence of the build. -/
def build (gen : Nat → String) (rows : List Row) : List Node :=
  (buildState gen rows).outputNodes

/-- The rank (0-based position in `hierarchyLevels`) a node instantiates:
the position of its one non-empty hierarchy field. -/
def nodeRank (n : Node) : Nat :=
  n.levelFields.findIdx (fun s => s != "")

/-- A deterministic stand-in id source (spec §9 suggests swapping the
random ids for such a source in analysis): `"a"`, `"aa"`, `"aaa"`, ... -/
def genA (n : Nat) : String := String.mk (List.replicate (n + 1) 'a')

/-- A second deterministic id source, for comparing two runs:
`"b"`, `"bb"`, ... -/
def genB (n : Nat) : String := String.mk (List.replicate (n + 1) 'b')

/-- The assumptions the analysis places on the ambient id source, all true
of the 24-hex-digit ids of `generateObjectId`: ids are pairwise distinct,
non-empty, and never contain the `':'` key separator. -/
def GoodGen (gen : Nat → String) : Prop :=
  Function.Injective gen ∧ (∀ n, gen n ≠ "") ∧ (∀ n, ':' ∉ (gen n).data)

/-- Normalisation of `previousLevelId` to the parent component of the
deduplication key triple: a falsy previous id means "no parent". -/
def prevNorm (p : Option String) : Option String :=
  if jsTruthy p then p else none

/-- One key resolution performed by the build: at `levelIdx`, the trimmed
`value` was looked up under parent `prevId` (`none` for top of a chain)
and resolved to the node id `resolvedId`. -/
structure ResEvent where
  levelIdx : Nat
  value : String
  prevId : Option String
  resolvedId : String
deriving Repr, DecidableEq

/-- The deduplication-key triple (level, trimmed title, parent-id-or-none)
of a resolution event, as spec §3 defines node identity. -/
def evTriple (e : ResEvent) : Nat × String × Option String :=
  (e.levelIdx, e.value, e.prevId)

/-- The resolution events (none or one) of a single `processLevel` step. -/
def levelEvents (gen : Nat → String) (row : Row) (st : BuildState)
    (prev : Option String) (idx : Nat) (level : String) : List ResEvent :=
  match rowCell row idx with
  | none => []
  | some raw =>
    if jsTrim raw = "" then []
    else
      [{ levelIdx := idx
         value := jsTrim raw
         prevId := prevNorm prev
         resolvedId :=
           (((processLevel gen row st prev idx level).1.idMap.lookup
             (mkKey level (jsTrim raw) prev)).getD "") }]

/-- `processLevel` instrumented with its resolution events. -/
def stepT (gen : Nat → String) (row : Row)
    (acc : (BuildState × Option String) × List ResEvent) (p : Nat × String) :
    (BuildState × Option String) × List ResEvent :=
  (processLevel gen row acc.1.1 acc.1.2 p.1 p.2,
   acc.2 ++ levelEvents gen row acc.1.1 acc.1.2 p.1 p.2)

/-- `processRow` instrumented with its resolution events. -/
def processRowT (gen : Nat → String) (acc : BuildState × List ResEvent) (row : Row) :
    BuildState × List ResEvent :=
  let r := hierarchyLevels.enum.foldl (stepT gen row) ((acc.1, (none : Option String)), acc.2)
  (r.1.1, r.2)

/-- The build instrumented with the sequence of its key resolutions, in
processing order (rows top to bottom, levels low rank to high rank). -/
def buildT (gen : Nat → String) (rows : List Row) : BuildState × List ResEvent :=
  rows.foldl (processRowT gen) (initState, [])

/-- The resolution trace of a build. -/
def buildTrace (gen : Nat → String) (rows : List Row) : List ResEvent :=
  (buildT gen rows).2

/-- First-occurrence order of a list, the spec's "first time each
deduplication key is seen" ordering (spec §3, Invariants). -/
def firstOccurrences (l : List String) : List String :=
  l.foldl (fun acc k => if k ∈ acc then acc else acc ++ [k]) []

/-- Example row `{L1: "A"}`. -/
def rowA : Row := { levels := [some "A", none, none, none, none] }

/-- Example row `{L1: "A", L2: "B"}`. -/
def rowAB : Row := { levels := [some "A", some "B", none, none, none] }

/-- Example row `{L1: "A", L3: "Z"}` (L2 absent): the gap-tolerance row. -/
def rowAZ : Row := { levels := [some "A", none, some "Z", none, none] }

/-- Example row `{L2: "B:a"}`: its L2 title contains the `':'` key
separator and collides with the composite key of title `"B"` under the
parent whose id is `"a"`. -/
def rowColl : Row := { levels := [none, some "B:a", none, none, none] }

/-- Example row `{L2: "X"}` (L1 absent): creates a parentless node at
rank 2. -/
def rowL2X : Row := { levels := [none, some "X", none, none, none] }

/-- Example row `{L1: "A"}` with `Description` `"first"`. -/
def rowADesc1 : Row := { levels := [some "A", none, none, none, none], mDescriptionText := some "first" }

/-- Example row `{L1: "A"}` with `Description` `"second"`. -/
def rowADesc2 : Row := { levels := [some "A", none, none, none, none], mDescriptionText := some "second" }

/-- Example row with every level cell absent or blank. -/
def rowEmpty : Row := { levels := [none, some "", some "   ", none, none] }

/-- The state produced when a fresh key leads to node creation
(`src/app.js` lines 72-108), written out explicitly. -/
def stCreate (gen : Nat → String) (row : Row) (st : BuildState)
    (prev : Option String) (value level : String) : BuildState :=
  { outputNodes :=
      if jsTruthy prev then
        linkChild (st.outputNodes ++ [mkNode (gen st.counter) value level prev row])
          (prev.getD "") (gen st.counter)
      else st.outputNodes ++ [mkNode (gen st.counter) value level prev row]
    idMap := (mkKey level value prev, gen st.counter) :: st.idMap
    counter := st.counter + 1 }

theorem processLevel_none {gen row st prev idx level} (h : rowCell row idx = none) :
    processLevel gen row st prev idx level = (st, prev) := by
  simp [processLevel, h]

theorem processLevel_blank {gen row st prev idx level raw}
    (h : rowCell row idx = some raw) (h2 : jsTrim raw = "") :
    processLevel gen row st prev idx level = (st, prev) := by
  simp [processLevel, h, h2]

theorem processLevel_hit {gen row st prev idx level raw v}
    (h : rowCell row idx = some raw) (h2 : jsTrim raw ≠ "")
    (h3 : st.idMap.lookup (mkKey level (jsTrim raw) prev) = some v) :
    processLevel gen row st prev idx level = (st, some v) := by
  simp [processLevel, h, h2, h3]

theorem processLevel_miss {gen row st prev idx level raw}
    (h : rowCell row idx = some raw) (h2 : jsTrim raw ≠ "")
    (h3 : st.idMap.lookup (mkKey level (jsTrim raw) prev) = none) :
    processLevel gen row st prev idx level =
      (stCreate gen row st prev (jsTrim raw) level, some (gen st.counter)) := by
  simp only [processLevel, h, h2, h3, if_neg h2]
  simp [stCreate, List.lookup]

theorem levelEvents_none {gen row st prev idx level} (h : rowCell row idx = none) :
    levelEvents gen row st prev idx level = [] := by
  simp [levelEvents, h]

theorem levelEvents_blank {gen row st prev idx level raw}
    (h : rowCell row idx = some raw) (h2 : jsTrim raw = "") :
    levelEvents gen row st prev idx level = [] := by
  simp [levelEvents, h, h2]

theorem levelEvents_hit {gen row st prev idx level raw v}
    (h : rowCell row idx = some raw) (h2 : jsTrim raw ≠ "")
    (h3 : st.idMap.lookup (mkKey level (jsTrim raw) prev) = some v) :
    levelEvents gen row st prev idx level =
      [{ levelIdx := idx, value := jsTrim raw, prevId := prevNorm prev, resolvedId := v }] := by
  have hp := @processLevel_hit gen row st prev idx level raw v h h2 h3
  simp [levelEvents, h, h2, hp, h3]

theorem levelEvents_miss {gen row st prev idx level raw}
    (h : rowCell row idx = some raw) (h2 : jsTrim raw ≠ "")
    (h3 : st.idMap.lookup (mkKey level (jsTrim raw) prev) = none) :
    levelEvents gen row st prev idx level =
      [{ levelIdx := idx, value := jsTrim raw, prevId := prevNorm prev,
         resolvedId := gen st.counter }] := by
  have hp := @processLevel_miss gen row st prev idx level raw h h2 h3
  simp [levelEvents, h, h2, hp, stCreate, List.lookup]

theorem foldT_fst (gen : Nat → String) (row : Row) :
    ∀ (l : List (Nat × String)) (s : BuildState × Option String) (tr : List ResEvent),
      (l.foldl (stepT gen row) (s, tr)).1 = l.foldl (levelStep gen row) s := by
  intro l
  induction l with
  | nil => intro s tr; rfl
  | cons p t ih =>
    intro s tr
    simp only [List.foldl_cons]
    exact ih _ _

theorem processRowT_fst (gen : Nat → String) (acc : BuildState × List ResEvent) (row : Row) :
    (processRowT gen acc row).1 = processRow gen acc.1 row := by
  simp only [processRowT, processRow]
  rw [foldT_fst]

theorem buildT_fst_aux (gen : Nat → String) :
    ∀ (rows : List Row) (acc : BuildState × List ResEvent),
      (rows.foldl (processRowT gen) acc).1 = rows.foldl (processRow gen) acc.1 := by
  intro rows
  induction rows with
  | nil => intro acc; rfl
  | cons r t ih =>
    intro acc
    simp only [List.foldl_cons]
    rw [ih, processRowT_fst]

/-- The instrumented build computes the same state as the plain build. -/
theorem buildT_fst (gen : Nat → String) (rows : List Row) :
    (buildT gen rows).1 = buildState gen rows :=
  buildT_fst_aux gen rows (initState, [])

/-- Everything of a node except its (append-only) child list. -/
def nodeCore (n : Node) : String × String × String × List String × NodeMeta :=
  (n._id, n.title, n._parent, n.levelFields, n.meta)

/-- `m` is `n` later in the same build: identical in every field except
that the child list may have grown at the end. -/
def NodeLE (n m : Node) : Prop := nodeCore n = nodeCore m ∧ n._child <+: m._child

/-- `ms` is `ns` later in the same build: the nodes of `ns` are still
there, in place, unchanged except for child-list growth. -/
def NodesLE (ns ms : List Node) : Prop :=
  ∀ i n, ns.get? i = some n → ∃ m, ms.get? i = some m ∧ NodeLE n m

theorem nodeLE_refl (n : Node) : NodeLE n n := ⟨rfl, List.prefix_refl _⟩

theorem nodeLE_trans {a b c : Node} (h1 : NodeLE a b) (h2 : NodeLE b c) : NodeLE a c :=
  ⟨h1.1.trans h2.1, h1.2.trans h2.2⟩

theorem nodesLE_refl (ns : List Node) : NodesLE ns ns :=
  fun _ n h => ⟨n, h, nodeLE_refl n⟩

theorem nodesLE_trans {a b c : List Node} (h1 : NodesLE a b) (h2 : NodesLE b c) :
    NodesLE a c := by
  intro i n h
  obtain ⟨m, hm, hle⟩ := h1 i n h
  obtain ⟨k, hk, hle'⟩ := h2 i m hm
  exact ⟨k, hk, nodeLE_trans hle hle'⟩

theorem nodesLE_append (ns l : List Node) : NodesLE ns (ns ++ l) := by
  intro i n h
  have hlt : i < ns.length := by
    by_contra hge
    rw [List.get?_eq_none.2 (Nat.le_of_not_lt hge)] at h
    exact Option.noConfusion h
  rw [List.get?_append hlt]
  exact ⟨n, h, nodeLE_refl n⟩

theorem nodesLE_linkChild (ns : List Node) (pid cid : String) :
    NodesLE ns (linkChild ns pid cid) := by
  cases hf : ns.find? (fun n => n._id == pid) with
  | none =>
    unfold linkChild
    rw [hf]
    exact nodesLE_refl ns
  | some pn =>
    unfold linkChild
    rw [hf]
    dsimp only
    by_cases hc : pn._child.contains cid
    · rw [if_pos hc]
      exact nodesLE_refl ns
    · rw [if_neg hc]
      intro i n h
      refine ⟨if n._id == pid then { n with _child := n._child ++ [cid] } else n, ?_, ?_⟩
      · rw [List.get?_map, h]; rfl
      · by_cases hid : n._id == pid
        · simp only [hid, if_true]
          exact ⟨rfl, List.prefix_append _ _⟩
        · simp only [hid, if_false]
          exact nodeLE_refl n

theorem processLevel_nodesLE (gen : Nat → String) (row : Row) (st : BuildState)
    (prev : Option String) (idx : Nat) (level : String) :
    NodesLE st.outputNodes (processLevel gen row st prev idx level).1.outputNodes := by
  cases h : rowCell row idx with
  | none => rw [processLevel_none h]; exact nodesLE_refl _
  | some raw =>
    by_cases h2 : jsTrim raw = ""
    · rw [processLevel_blank h h2]; exact nodesLE_refl _
    · cases h3 : st.idMap.lookup (mkKey level (jsTrim raw) prev) with
      | some v => rw [processLevel_hit h h2 h3]; exact nodesLE_refl _
      | none =>
        rw [processLevel_miss h h2 h3]
        simp only [stCreate]
        by_cases hp : jsTruthy prev
        · simp only [hp, if_true]
          exact nodesLE_trans (nodesLE_append _ _) (nodesLE_linkChild _ _ _)
        · simp only [hp, if_false]
          exact nodesLE_append _ _

theorem foldLevels_nodesLE (gen : Nat → String) (row : Row) :
    ∀ (l : List (Nat × String)) (acc : BuildState × Option String),
      NodesLE acc.1.outputNodes ((l.foldl (levelStep gen row) acc).1.outputNodes) := by
  intro l
  induction l with
  | nil => intro acc; exact nodesLE_refl _
  | cons p t ih =>
    intro acc
    simp only [List.foldl_cons]
    exact nodesLE_trans (processLevel_nodesLE gen row acc.1 acc.2 p.1 p.2) (ih _)

theorem processRow_nodesLE (gen : Nat → String) (st : BuildState) (row : Row) :
    NodesLE st.outputNodes (processRow gen st row).outputNodes :=
  foldLevels_nodesLE gen row _ (st, none)

theorem foldRows_nodesLE (gen : Nat → String) :
    ∀ (rows : List Row) (st : BuildState),
      NodesLE st.outputNodes ((rows.foldl (processRow gen) st).outputNodes) := by
  intro rows
  induction rows with
  | nil => intro st; exact nodesLE_refl _
  | cons r t ih =>
    intro st
    simp only [List.foldl_cons]
    exact nodesLE_trans (processRow_nodesLE gen st r) (ih _)

/-- Extending the row sequence only extends the output and grows child
lists: every already-created node keeps its position, id, title, parent,
level fields and metadata. -/
theorem build_extend_nodesLE (gen : Nat → String) (rows₁ rows₂ : List Row) :
    NodesLE (build gen rows₁) (build gen (rows₁ ++ rows₂)) := by
  unfold build buildState
  rw [List.foldl_append]
  exact foldRows_nodesLE gen rows₂ _

/-- A string without the `':'` separator the composite keys are joined
with. -/
def ColonFree (s : String) : Prop := ':' ∉ s.data

instance (s : String) : Decidable (ColonFree s) :=
  inferInstanceAs (Decidable (':' ∉ s.data))

theorem colon_split : ∀ (l₁ l₂ r₁ r₂ : List Char), ':' ∉ l₁ → ':' ∉ l₂ →
    l₁ ++ ':' :: r₁ = l₂ ++ ':' :: r₂ → l₁ = l₂ ∧ r₁ = r₂ := by
  intro l₁
  induction l₁ with
  | nil =>
    intro l₂ r₁ r₂ h1 h2 heq
    cases l₂ with
    | nil =>
      simp only [List.nil_append] at heq
      injection heq with _ hr
      exact ⟨rfl, hr⟩
    | cons c t =>
      simp only [List.nil_append, List.cons_append] at heq
      injection heq with hc _
      exact absurd (hc ▸ List.mem_cons_self c t) h2
  | cons c t ih =>
    intro l₂ r₁ r₂ h1 h2 heq
    cases l₂ with
    | nil =>
      simp only [List.cons_append, List.nil_append] at heq
      injection heq with hc _
      exact absurd (show ':' ∈ c :: t by rw [hc]; exact List.mem_cons_self ':' t) h1
    | cons d u =>
      simp only [List.cons_append] at heq
      injection heq with hcd hrest
      obtain ⟨hu, hr⟩ := ih u r₁ r₂
        (fun hm => h1 (List.mem_cons_of_mem _ hm))
        (fun hm => h2 (List.mem_cons_of_mem _ hm)) hrest
      exact ⟨by rw [hcd, hu], hr⟩

theorem colon_data : (":" : String).data = [':'] := rfl

theorem string_colon_cancel {a b x y : String} (ha : ColonFree a) (hb : ColonFree b)
    (h : a ++ ":" ++ x = b ++ ":" ++ y) : a = b ∧ x = y := by
  have hd : a.data ++ ':' :: x.data = b.data ++ ':' :: y.data := by
    have h' := congrArg String.data h
    simpa [String.data_append, colon_data] using h'
  obtain ⟨h1, h2⟩ := colon_split _ _ _ _ ha hb hd
  exact ⟨String.ext h1, String.ext h2⟩

/-- A well-formed `previousLevelId` as the key sees it: absent, or a
non-empty id free of the separator. -/
def PrevWF (p : Option String) : Prop :=
  p = none ∨ ∃ s, p = some s ∧ s ≠ "" ∧ ColonFree s

theorem mkKey_none (l v : String) : mkKey l v none = l ++ ":" ++ v := rfl

theorem mkKey_some {s : String} (hs : s ≠ "") (l v : String) :
    mkKey l v (some s) = l ++ ":" ++ v ++ ":" ++ s := by
  have ht : jsTruthy (some s) = true := by simp [jsTruthy, hs]
  simp [mkKey, ht]

theorem colon_mem_concat (v s : String) : ':' ∈ (v ++ ":" ++ s).data := by
  simp [String.data_append, colon_data]

theorem key_reassoc (l v s : String) :
    l ++ ":" ++ v ++ ":" ++ s = l ++ ":" ++ (v ++ ":" ++ s) := by
  rw [String.append_assoc (l ++ ":") v ":", String.append_assoc (l ++ ":") (v ++ ":") s]

theorem mkKey_inj {l₁ l₂ v₁ v₂ : String} {p₁ p₂ : Option String}
    (hl₁ : ColonFree l₁) (hl₂ : ColonFree l₂) (hv₁ : ColonFree v₁) (hv₂ : ColonFree v₂)
    (hp₁ : PrevWF p₁) (hp₂ : PrevWF p₂)
    (h : mkKey l₁ v₁ p₁ = mkKey l₂ v₂ p₂) : l₁ = l₂ ∧ v₁ = v₂ ∧ p₁ = p₂ := by
  rcases hp₁ with h₁ | ⟨s₁, hs₁, hne₁, hcf₁⟩ <;> rcases hp₂ with h₂ | ⟨s₂, hs₂, hne₂, hcf₂⟩
  · subst h₁; subst h₂
    rw [mkKey_none, mkKey_none] at h
    obtain ⟨hl, hv⟩ := string_colon_cancel hl₁ hl₂ h
    exact ⟨hl, hv, rfl⟩
  · subst h₁; subst hs₂
    rw [mkKey_none, mkKey_some hne₂, key_reassoc l₂ v₂ s₂] at h
    obtain ⟨_, hv⟩ := string_colon_cancel hl₁ hl₂ h
    exact absurd (hv ▸ colon_mem_concat v₂ s₂) hv₁
  · subst h₂; subst hs₁
    rw [mkKey_none, mkKey_some hne₁, key_reassoc l₁ v₁ s₁] at h
    obtain ⟨_, hv⟩ := string_colon_cancel hl₂ hl₁ h.symm
    exact absurd (hv ▸ colon_mem_concat v₁ s₁) hv₂
  · subst hs₁; subst hs₂
    rw [mkKey_some hne₁, mkKey_some hne₂, key_reassoc l₁ v₁ s₁, key_reassoc l₂ v₂ s₂] at h
    obtain ⟨hl, hrest⟩ := string_colon_cancel hl₁ hl₂ h
    obtain ⟨hv, hs⟩ := string_colon_cancel hv₁ hv₂ hrest
    exact ⟨hl, hv, by rw [hs]⟩

theorem levelName_colonFree : ∀ i < hierarchyLevels.length, ColonFree (hierarchyLevels.getD i "") := by
  decide

theorem levelName_len : ∀ i < hierarchyLevels.length, 2 ≤ (hierarchyLevels.getD i "").data.length := by
  decide

theorem levelName_sndChar_inj : ∀ i < hierarchyLevels.length, ∀ j < hierarchyLevels.length,
    (hierarchyLevels.getD i "").data.get? 1 = (hierarchyLevels.getD j "").data.get? 1 → i = j := by
  decide

theorem secondChar_append {s : String} (t : String) (h : 2 ≤ s.data.length) :
    (s ++ t).data.get? 1 = s.data.get? 1 := by
  rw [String.data_append]
  exact List.get?_append (by omega)

/-- The five level names differ in their second character, so a composite
key determines the level that formed it, whatever follows. -/
theorem levelPrefix_inj {i j : Nat} (hi : i < hierarchyLevels.length)
    (hj : j < hierarchyLevels.length) {a b : String}
    (h : hierarchyLevels.getD i "" ++ a = hierarchyLevels.getD j "" ++ b) : i = j := by
  apply levelName_sndChar_inj i hi j hj
  rw [← secondChar_append a (levelName_len i hi), ← secondChar_append b (levelName_len j hj), h]

theorem mkKey_level_append (l v : String) (p : Option String) :
    ∃ rest, mkKey l v p = l ++ rest := by
  unfold mkKey
  by_cases hp : jsTruthy p
  · rw [if_pos hp]
    exact ⟨":" ++ v ++ ":" ++ p.getD "", by simp [String.append_assoc]⟩
  · rw [if_neg hp]
    exact ⟨":" ++ v, String.append_assoc _ _ _⟩

/-- Two equal composite keys were formed at the same level. -/
theorem mkKey_rank_inj {i j : Nat} (hi : i < hierarchyLevels.length)
    (hj : j < hierarchyLevels.length) {v₁ v₂ : String} {p₁ p₂ : Option String}
    (h : mkKey (hierarchyLevels.getD i "") v₁ p₁ = mkKey (hierarchyLevels.getD j "") v₂ p₂) :
    i = j := by
  obtain ⟨r₁, e₁⟩ := mkKey_level_append (hierarchyLevels.getD i "") v₁ p₁
  obtain ⟨r₂, e₂⟩ := mkKey_level_append (hierarchyLevels.getD j "") v₂ p₂
  exact levelPrefix_inj hi hj (by rw [← e₁, ← e₂, h])

/-- The cell at `idx` is absent or blank: the skip condition of
`src/app.js` lines 59-61. -/
def EmptyCell (row : Row) (idx : Nat) : Prop :=
  ((rowCell row idx).map jsTrim).getD "" = ""

instance (row : Row) (idx : Nat) : Decidable (EmptyCell row idx) :=
  inferInstanceAs (Decidable (((rowCell row idx).map jsTrim).getD "" = ""))

/-- Skipping: an absent or blank cell leaves both the state and
`previousLevelId` untouched. -/
theorem processLevel_skip {gen row st prev idx level} (h : EmptyCell row idx) :
    processLevel gen row st prev idx level = (st, prev) := by
  cases hc : rowCell row idx with
  | none => exact processLevel_none hc
  | some raw =>
    have ht : jsTrim raw = "" := by
      unfold EmptyCell at h
      rw [hc] at h
      simpa using h
    exact processLevel_blank hc ht

/-- Every level cell of the row is absent or blank. -/
def EmptyRow (row : Row) : Prop := ∀ idx, EmptyCell row idx

theorem emptyRow_of {row : Row} (h : ∀ i < row.levels.length, EmptyCell row i) :
    EmptyRow row := by
  intro idx
  by_cases hlt : idx < row.levels.length
  · exact h idx hlt
  · unfold EmptyCell rowCell
    rw [List.getD_eq_default _ _ (Nat.le_of_not_lt hlt)]
    rfl

theorem foldLevels_empty (gen : Nat → String) (row : Row) (h : EmptyRow row) :
    ∀ (l : List (Nat × String)) (st : BuildState) (prev : Option String),
      l.foldl (levelStep gen row) (st, prev) = (st, prev) := by
  intro l
  induction l with
  | nil => intro st prev; rfl
  | cons p t ih =>
    intro st prev
    simp only [List.foldl_cons, levelStep]
    rw [processLevel_skip (h p.1)]
    exact ih st prev

theorem processRow_empty {gen : Nat → String} {st : BuildState} {row : Row}
    (h : EmptyRow row) : processRow gen st row = st := by
  unfold processRow
  rw [foldLevels_empty gen row h]

theorem build_empty_row_erased (gen : Nat → String) (rows₁ rows₂ : List Row) (row : Row)
    (h : EmptyRow row) : build gen (rows₁ ++ row :: rows₂) = build gen (rows₁ ++ rows₂) := by
  unfold build buildState
  rw [List.foldl_append, List.foldl_append, List.foldl_cons, processRow_empty h]

theorem mem_of_lookup_eq_some {l : List (String × String)} {k v : String}
    (h : l.lookup k = some v) : (k, v) ∈ l := by
  induction l with
  | nil => simp [List.lookup] at h
  | cons e t ih =>
    rw [show e = (e.1, e.2) from rfl, List.lookup_cons] at h
    by_cases hk : (k == e.1) = true
    · simp only [hk] at h
      injection h with hv
      have hke : k = e.1 := by simpa using hk
      rw [hke, ← hv]
      exact List.mem_cons_self _ _
    · simp only [Bool.not_eq_true] at hk
      simp only [hk] at h
      exact List.mem_cons_of_mem _ (ih h)

theorem lookup_eq_none_not_mem {l : List (String × String)} {k : String}
    (h : l.lookup k = none) : k ∉ l.map Prod.fst := by
  induction l with
  | nil => simp
  | cons e t ih =>
    rw [show e = (e.1, e.2) from rfl, List.lookup_cons] at h
    by_cases hk : (k == e.1) = true
    · simp only [hk] at h
      exact absurd h (by simp)
    · simp only [Bool.not_eq_true] at hk
      simp only [hk] at h
      simp only [List.map_cons, List.mem_cons]
      rintro (he | hm)
      · rw [he] at hk
        simp at hk
      · exact ih h hm

theorem lookup_mem_of_mem_nodup {l : List (String × String)} {k v : String}
    (hnd : (l.map Prod.fst).Nodup) (h : (k, v) ∈ l) : l.lookup k = some v := by
  induction l with
  | nil => simp at h
  | cons e t ih =>
    rw [List.map_cons] at hnd
    obtain ⟨hnotin, hnd'⟩ := List.nodup_cons.1 hnd
    rw [show e = (e.1, e.2) from rfl, List.lookup_cons]
    rcases List.mem_cons.1 h with he | hm
    · have h2 : v = e.2 := congrArg Prod.snd he
      have hkb : (k == e.1) = true := by
        have h1 : k = e.1 := congrArg Prod.fst he
        simpa using h1
      simp only [hkb]
      rw [h2]
    · have hk : ¬ k = e.1 := by
        intro hke
        exact hnotin (hke ▸ List.mem_map_of_mem Prod.fst hm)
      have hkb : (k == e.1) = false := by simpa using hk
      simp only [hkb]
      exact ih hnd' hm

theorem linkChild_get?_of {ns : List Node} {pid cid : String} {i : Nat} {n : Node}
    (h : ns.get? i = some n) :
    ∃ m, (linkChild ns pid cid).get? i = some m ∧ nodeCore m = nodeCore n ∧
      (m._child = n._child ∨ (m._child = n._child ++ [cid] ∧ n._id = pid)) := by
  cases hf : ns.find? (fun nd => nd._id == pid) with
  | none =>
    refine ⟨n, ?_, rfl, Or.inl rfl⟩
    unfold linkChild
    rw [hf]
    exact h
  | some pn =>
    unfold linkChild
    rw [hf]
    dsimp only
    by_cases hc : pn._child.contains cid
    · rw [if_pos hc]
      exact ⟨n, h, rfl, Or.inl rfl⟩
    · rw [if_neg hc]
      by_cases hid : (n._id == pid) = true
      · refine ⟨{ n with _child := n._child ++ [cid] }, ?_, rfl, Or.inr ⟨rfl, by simpa using hid⟩⟩
        rw [List.get?_map, h]
        simp only [Option.map_some']
        rw [if_pos hid]
      · refine ⟨n, ?_, rfl, Or.inl rfl⟩
        rw [List.get?_map, h]
        simp only [Option.map_some']
        rw [if_neg hid]

theorem linkChild_get?_inv {ns : List Node} {pid cid : String} {i : Nat} {m : Node}
    (h : (linkChild ns pid cid).get? i = some m) :
    ∃ n, ns.get? i = some n ∧ nodeCore m = nodeCore n := by
  cases hf : ns.find? (fun nd => nd._id == pid) with
  | none =>
    unfold linkChild at h
    rw [hf] at h
    exact ⟨m, h, rfl⟩
  | some pn =>
    unfold linkChild at h
    rw [hf] at h
    dsimp only at h
    by_cases hc : pn._child.contains cid
    · rw [if_pos hc] at h
      exact ⟨m, h, rfl⟩
    · rw [if_neg hc] at h
      rw [List.get?_map] at h
      cases hg : ns.get? i with
      | none => rw [hg] at h; exact Option.noConfusion h
      | some n =>
        rw [hg] at h
        simp only [Option.map_some'] at h
        injection h with hm
        by_cases hid : (n._id == pid) = true
        · rw [if_pos hid] at hm
          refine ⟨n, rfl, ?_⟩
          rw [← hm]
          rfl
        · rw [if_neg hid] at hm
          rw [← hm]
          exact ⟨n, rfl, rfl⟩

theorem linkChild_length (ns : List Node) (pid cid : String) :
    (linkChild ns pid cid).length = ns.length := by
  cases hf : ns.find? (fun nd => nd._id == pid) with
  | none => unfold linkChild; rw [hf]
  | some pn =>
    unfold linkChild
    rw [hf]
    dsimp only
    by_cases hc : pn._child.contains cid
    · rw [if_pos hc]
    · rw [if_neg hc]
      exact List.length_map _ _

theorem linkChild_update {ns : List Node} {pid cid : String} {pn : Node}
    (hf : ns.find? (fun n => n._id == pid) = some pn)
    (hc : pn._child.contains cid = false) :
    linkChild ns pid cid =
      ns.map (fun n => if n._id == pid then { n with _child := n._child ++ [cid] } else n) := by
  unfold linkChild
  rw [hf]
  dsimp only
  rw [if_neg (by rw [hc]; simp)]

theorem find?_id_of_get? {ns : List Node} {j : Nat} {pn : Node}
    (hids : ∀ i j n m, ns.get? i = some n → ns.get? j = some m → n._id = m._id → i = j)
    (hj : ns.get? j = some pn) :
    ns.find? (fun n => n._id == pn._id) = some pn := by
  induction ns generalizing j with
  | nil => simp at hj
  | cons a t ih =>
    cases j with
    | zero =>
      have ha : a = pn := by simpa using hj
      rw [List.find?_cons, ha]
      simp
    | succ j' =>
      have hj' : t.get? j' = some pn := by simpa using hj
      have hne : (a._id == pn._id) = false := by
        by_contra hb
        rw [Bool.not_eq_false] at hb
        have heq : a._id = pn._id := by simpa using hb
        have h0 : (a :: t).get? 0 = some a := rfl
        have hs : (a :: t).get? (j' + 1) = some pn := hj
        exact Nat.noConfusion (hids 0 (j' + 1) a pn h0 hs heq)
      rw [List.find?_cons, hne]
      dsimp only
      exact ih (fun i j n m hi hj hid =>
        Nat.succ_injective (hids (i + 1) (j + 1) n m (by simpa using hi) (by simpa using hj) hid)) hj'

/-- The hierarchy-level name a node instantiates. -/
def nodeLevelName (n : Node) : String := hierarchyLevels.getD (nodeRank n) ""

/-- The parent component of a node's deduplication key. -/
def nodePrev (n : Node) : Option String :=
  if n._parent = "" then none else some n._parent

/-- The composite key under which a node was created, reconstructed from
the node itself. -/
def nodeKey (n : Node) : String := mkKey (nodeLevelName n) n.title (nodePrev n)

theorem core_id {m n : Node} (h : nodeCore m = nodeCore n) : m._id = n._id :=
  congrArg (fun c => c.1) h

theorem core_title {m n : Node} (h : nodeCore m = nodeCore n) : m.title = n.title :=
  congrArg (fun c => c.2.1) h

theorem core_parent {m n : Node} (h : nodeCore m = nodeCore n) : m._parent = n._parent :=
  congrArg (fun c => c.2.2.1) h

theorem core_fields {m n : Node} (h : nodeCore m = nodeCore n) : m.levelFields = n.levelFields :=
  congrArg (fun c => c.2.2.2.1) h

theorem core_meta {m n : Node} (h : nodeCore m = nodeCore n) : m.meta = n.meta :=
  congrArg (fun c => c.2.2.2.2) h

theorem nodeRank_congr {m n : Node} (h : nodeCore m = nodeCore n) : nodeRank m = nodeRank n := by
  unfold nodeRank
  rw [core_fields h]

theorem nodeKey_congr {m n : Node} (h : nodeCore m = nodeCore n) : nodeKey m = nodeKey n := by
  unfold nodeKey nodeLevelName nodePrev
  rw [nodeRank_congr h, core_title h, core_parent h]

theorem findIdx_mkLF {v : String} (hv : v ≠ "") :
    ∀ idx < hierarchyLevels.length,
      (mkLevelFields (hierarchyLevels.getD idx "") v).findIdx (fun s => s != "") = idx := by
  have hvb : (v != "") = true := by simpa using hv
  intro idx h
  have h5 : idx < 5 := by simpa [hierarchyLevels] using h
  interval_cases idx <;>
    simp [mkLevelFields, hierarchyLevels, List.findIdx_cons, hvb]

theorem nodeRank_mkNode {nodeId v : String} {prev : Option String} {row : Row} {idx : Nat}
    (hidx : idx < hierarchyLevels.length) (hv : v ≠ "") :
    nodeRank (mkNode nodeId v (hierarchyLevels.getD idx "") prev row) = idx := by
  unfold nodeRank mkNode
  exact findIdx_mkLF hv idx hidx

theorem mkKey_some_empty (l v : String) : mkKey l v (some "") = mkKey l v none := rfl

theorem nodeKey_mkNode {nodeId v : String} {prev : Option String} {row : Row} {idx : Nat}
    (hidx : idx < hierarchyLevels.length) (hv : v ≠ "") :
    nodeKey (mkNode nodeId v (hierarchyLevels.getD idx "") prev row) =
      mkKey (hierarchyLevels.getD idx "") v prev := by
  unfold nodeKey nodeLevelName
  rw [nodeRank_mkNode hidx hv]
  show mkKey _ (mkNode nodeId v _ prev row).title
      (nodePrev (mkNode nodeId v (hierarchyLevels.getD idx "") prev row)) = _
  unfold nodePrev mkNode
  cases prev with
  | none => rfl
  | some p =>
    by_cases hp : p = ""
    · subst hp
      simp [mkKey_some_empty]
    · simp only [Option.getD_some]
      rw [if_neg hp]

theorem get?_snoc {α : Type} {l : List α} {a : α} {i : Nat} {x : α}
    (h : (l ++ [a]).get? i = some x) :
    (i < l.length ∧ l.get? i = some x) ∨ (i = l.length ∧ x = a) := by
  rcases Nat.lt_trichotomy i l.length with hlt | heq | hgt
  · left
    exact ⟨hlt, by rw [← List.get?_append hlt]; exact h⟩
  · right
    subst heq
    rw [List.get?_concat_length] at h
    injection h with h'
    exact ⟨rfl, h'.symm⟩
  · exfalso
    rw [List.get?_eq_none.2 (by simp; omega)] at h
    exact Option.noConfusion h

theorem get?_lt_of_some {α : Type} {l : List α} {i : Nat} {x : α} (h : l.get? i = some x) :
    i < l.length := by
  by_contra hge
  rw [List.get?_eq_none.2 (Nat.le_of_not_lt hge)] at h
  exact Option.noConfusion h

theorem stCreate_nodes (gen : Nat → String) (row : Row) (st : BuildState)
    (prev : Option String) (value level : String) :
    (stCreate gen row st prev value level).outputNodes =
      if jsTruthy prev then
        linkChild (st.outputNodes ++ [mkNode (gen st.counter) value level prev row])
          (prev.getD "") (gen st.counter)
      else st.outputNodes ++ [mkNode (gen st.counter) value level prev row] := rfl

theorem stCreate_idMap (gen : Nat → String) (row : Row) (st : BuildState)
    (prev : Option String) (value level : String) :
    (stCreate gen row st prev value level).idMap =
      (mkKey level value prev, gen st.counter) :: st.idMap := rfl

theorem stCreate_counter (gen : Nat → String) (row : Row) (st : BuildState)
    (prev : Option String) (value level : String) :
    (stCreate gen row st prev value level).counter = st.counter + 1 := rfl

theorem create_get?_inv {gen : Nat → String} {row : Row} {st : BuildState}
    {prev : Option String} {value level : String} {i : Nat} {n2 : Node}
    (h : (stCreate gen row st prev value level).outputNodes.get? i = some n2) :
    ∃ n, (st.outputNodes ++ [mkNode (gen st.counter) value level prev row]).get? i = some n ∧
      nodeCore n2 = nodeCore n := by
  rw [stCreate_nodes] at h
  by_cases hp : jsTruthy prev
  · rw [if_pos hp] at h
    exact linkChild_get?_inv h
  · rw [if_neg hp] at h
    exact ⟨n2, h, rfl⟩

theorem create_get?_fwd {gen : Nat → String} {row : Row} {st : BuildState}
    {prev : Option String} {value level : String} {i : Nat} {n : Node}
    (h : (st.outputNodes ++ [mkNode (gen st.counter) value level prev row]).get? i = some n) :
    ∃ m, (stCreate gen row st prev value level).outputNodes.get? i = some m ∧
      nodeCore m = nodeCore n := by
  rw [stCreate_nodes]
  by_cases hp : jsTruthy prev
  · rw [if_pos hp]
    obtain ⟨m, hm, hc, _⟩ := linkChild_get?_of h
    exact ⟨m, hm, hc⟩
  · rw [if_neg hp]
    exact ⟨n, h, rfl⟩

/-- The parts of the build-state invariant that need no assumption on the
id source: every id the dedup index stores belongs to a node of the
output, and every non-empty parent reference points to an earlier node. -/
structure LightInv (st : BuildState) : Prop where
  map_vals : ∀ kv ∈ st.idMap, ∃ i n, st.outputNodes.get? i = some n ∧ n._id = kv.2
  parent_earlier : ∀ i n, st.outputNodes.get? i = some n → n._parent ≠ "" →
    ∃ j m, j < i ∧ st.outputNodes.get? j = some m ∧ m._id = n._parent

/-- `previousLevelId`, when set, is the id of some already-created node. -/
def PrevLight (st : BuildState) (prev : Option String) : Prop :=
  ∀ p, prev = some p → ∃ i n, st.outputNodes.get? i = some n ∧ n._id = p

theorem step_light {gen : Nat → String} {row : Row} {st : BuildState}
    {prev : Option String} {idx : Nat} {level : String}
    (hL : LightInv st) (hP : PrevLight st prev) :
    LightInv (processLevel gen row st prev idx level).1 ∧
      PrevLight (processLevel gen row st prev idx level).1
        (processLevel gen row st prev idx level).2 := by
  cases hc : rowCell row idx with
  | none => rw [processLevel_none hc]; exact ⟨hL, hP⟩
  | some raw =>
    by_cases h2 : jsTrim raw = ""
    · rw [processLevel_blank hc h2]; exact ⟨hL, hP⟩
    · cases h3 : st.idMap.lookup (mkKey level (jsTrim raw) prev) with
      | some v =>
        rw [processLevel_hit hc h2 h3]
        refine ⟨hL, fun p hp => ?_⟩
        injection hp with hv
        obtain ⟨i, n, hin, hid⟩ := hL.map_vals _ (mem_of_lookup_eq_some h3)
        exact ⟨i, n, hin, by rw [hid, ← hv]⟩
      | none =>
        rw [processLevel_miss hc h2 h3]
        set value := jsTrim raw with hval
        set node := mkNode (gen st.counter) value level prev row with hnode
        set ms := st.outputNodes ++ [node] with hms
        have hnodeN : ms.get? st.outputNodes.length = some node := List.get?_concat_length _ _
        have hfwd0 : ∀ k m, st.outputNodes.get? k = some m →
            ∃ m2, (stCreate gen row st prev value level).outputNodes.get? k = some m2 ∧
              nodeCore m2 = nodeCore m := by
          intro k m hk
          exact create_get?_fwd (by rw [← hms, List.get?_append (get?_lt_of_some hk)]; exact hk)
        have hfwdN : ∃ m2, (stCreate gen row st prev value level).outputNodes.get?
            st.outputNodes.length = some m2 ∧ nodeCore m2 = nodeCore node :=
          create_get?_fwd (by rw [← hms]; exact hnodeN)
        constructor
        constructor
        · -- map_vals
          intro kv hkv
          rw [stCreate_idMap] at hkv
          rcases List.mem_cons.1 hkv with he | hm
          · obtain ⟨m2, hm2, hcore⟩ := hfwdN
            refine ⟨st.outputNodes.length, m2, hm2, ?_⟩
            rw [core_id hcore, he]
            rfl
          · obtain ⟨i, n, hin, hid⟩ := hL.map_vals _ hm
            obtain ⟨m2, hm2, hcore⟩ := hfwd0 i n hin
            exact ⟨i, m2, hm2, by rw [core_id hcore, hid]⟩
        · -- parent_earlier
          intro i n2 hi hpar
          obtain ⟨n, hn, hcore⟩ := create_get?_inv hi
          rw [← hms] at hn
          rcases get?_snoc hn with ⟨hlt, hget⟩ | ⟨hie, hna⟩
          · obtain ⟨j, m, hji, hjm, hmid⟩ := hL.parent_earlier i n hget
              (by rw [← core_parent hcore]; exact hpar)
            obtain ⟨m2, hm2, hcore2⟩ := hfwd0 j m hjm
            exact ⟨j, m2, hji, hm2, by rw [core_id hcore2, hmid, core_parent hcore]⟩
          · subst hie
            subst hna
            have hpar' : node._parent ≠ "" := by rw [← core_parent hcore]; exact hpar
            have hprevsome : ∃ p, prev = some p ∧ p ≠ "" := by
              cases hprev : prev with
              | none =>
                exfalso
                apply hpar'
                rw [hnode, hprev]
                rfl
              | some p =>
                refine ⟨p, rfl, ?_⟩
                intro hpe
                apply hpar'
                rw [hnode, hprev, hpe]
                rfl
            obtain ⟨p, hpeq, hpne⟩ := hprevsome
            obtain ⟨j, m, hjm, hmid⟩ := hP p hpeq
            obtain ⟨m2, hm2, hcore2⟩ := hfwd0 j m hjm
            refine ⟨j, m2, get?_lt_of_some hjm, hm2, ?_⟩
            rw [core_id hcore2, hmid, core_parent hcore, hnode, hpeq]
            rfl
        · -- PrevLight for the resolved id
          intro p hp
          injection hp with hv
          obtain ⟨m2, hm2, hcore⟩ := hfwdN
          refine ⟨st.outputNodes.length, m2, hm2, ?_⟩
          rw [core_id hcore, ← hv]
          rfl

theorem foldLevels_light (gen : Nat → String) (row : Row) :
    ∀ (l : List (Nat × String)) (acc : BuildState × Option String),
      LightInv acc.1 → PrevLight acc.1 acc.2 →
      LightInv (l.foldl (levelStep gen row) acc).1 ∧
        PrevLight (l.foldl (levelStep gen row) acc).1 (l.foldl (levelStep gen row) acc).2 := by
  intro l
  induction l with
  | nil => intro acc h1 h2; exact ⟨h1, h2⟩
  | cons p t ih =>
    intro acc h1 h2
    simp only [List.foldl_cons]
    obtain ⟨h1', h2'⟩ := @step_light gen row acc.1 acc.2 p.1 p.2 h1 h2
    exact ih _ h1' h2'

theorem processRow_light {gen : Nat → String} {st : BuildState} {row : Row}
    (h : LightInv st) : LightInv (processRow gen st row) :=
  (foldLevels_light gen row hierarchyLevels.enum (st, none) h
    (fun _ hp => Option.noConfusion hp)).1

theorem lightInv_init : LightInv initState where
  map_vals := fun kv hkv => absurd hkv (List.not_mem_nil kv)
  parent_earlier := fun i n hi => absurd hi (by simp [initState])

theorem buildState_light (gen : Nat → String) (rows : List Row) :
    LightInv (buildState gen rows) := by
  unfold buildState
  induction rows using List.reverseRecOn with
  | nil => exact lightInv_init
  | append_singleton t r ih =>
    rw [List.foldl_append, List.foldl_cons, List.foldl_nil]
    exact processRow_light ih

/-- Shape facts that hold of every created node: it sits at a real rank
with a non-blank title, its hierarchy fields are the one-hot spread of
`src/app.js` line 83, and its parent, when set, is an earlier node of
strictly smaller rank. -/
structure NodeWF (ns : List Node) (i : Nat) (n : Node) : Prop where
  rank_lt : nodeRank n < hierarchyLevels.length
  title_ne : n.title ≠ ""
  fields_eq : n.levelFields = mkLevelFields (hierarchyLevels.getD (nodeRank n) "") n.title
  parent_wf : n._parent = "" ∨
    ∃ j m, j < i ∧ ns.get? j = some m ∧ m._id = n._parent ∧ nodeRank m < nodeRank n

/-- The build-state invariant, maintained under a well-behaved id source:
the counter counts the output, the i-th node carries the i-th fresh id,
the dedup index is in bijection with the output (keys are the nodes'
composite keys), every node is well-shaped, and every child list holds
exactly the ids of the nodes parented to it, in creation order. -/
structure BuildInv (gen : Nat → String) (st : BuildState) : Prop where
  counter_eq : st.counter = st.outputNodes.length
  id_eq : ∀ i n, st.outputNodes.get? i = some n → n._id = gen i
  key_nodup : (st.idMap.map Prod.fst).Nodup
  entry_sound : ∀ kv ∈ st.idMap, ∃ i n, st.outputNodes.get? i = some n ∧
    kv.2 = n._id ∧ kv.1 = nodeKey n
  node_complete : ∀ i n, st.outputNodes.get? i = some n → (nodeKey n, n._id) ∈ st.idMap
  node_wf : ∀ i n, st.outputNodes.get? i = some n → NodeWF st.outputNodes i n
  child_exact : ∀ i n, st.outputNodes.get? i = some n →
    n._child = (st.outputNodes.filter (fun m => m._parent == n._id)).map (fun m => m._id)

/-- `previousLevelId` mid-row: absent, or the id of a node of rank below
`bound` (the rank about to be processed). -/
def PrevOK (st : BuildState) (prev : Option String) (bound : Nat) : Prop :=
  prev = none ∨ ∃ p i n, prev = some p ∧ st.outputNodes.get? i = some n ∧
    n._id = p ∧ nodeRank n < bound

theorem prevOK_mono {st : BuildState} {prev : Option String} {b b' : Nat}
    (h : PrevOK st prev b) (hb : b ≤ b') : PrevOK st prev b' := by
  rcases h with h | ⟨p, i, n, h1, h2, h3, h4⟩
  · exact Or.inl h
  · exact Or.inr ⟨p, i, n, h1, h2, h3, Nat.lt_of_lt_of_le h4 hb⟩

theorem inv_init (gen : Nat → String) : BuildInv gen initState where
  counter_eq := rfl
  id_eq := fun i n hi => absurd hi (by simp [initState])
  key_nodup := List.nodup_nil
  entry_sound := fun kv hkv => absurd hkv (List.not_mem_nil kv)
  node_complete := fun i n hi => absurd hi (by simp [initState])
  node_wf := fun i n hi => absurd hi (by simp [initState])
  child_exact := fun i n hi => absurd hi (by simp [initState])

theorem filter_nil_of_all {p : Node → Bool} {l : List Node}
    (h : ∀ a ∈ l, p a = false) : l.filter p = [] := by
  induction l with
  | nil => rfl
  | cons a t ih =>
    rw [List.filter_cons, h a (List.mem_cons_self a t)]
    exact ih (fun b hb => h b (List.mem_cons_of_mem a hb))

theorem map_upd_filter (pid cid tid : String) :
    ∀ ms : List Node,
      (((ms.map (fun nd => if nd._id == pid then
          { nd with _child := nd._child ++ [cid] } else nd)).filter
        (fun m => m._parent == tid)).map (fun m => m._id))
      = (ms.filter (fun m => m._parent == tid)).map (fun m => m._id) := by
  intro ms
  induction ms with
  | nil => rfl
  | cons a t ih =>
    by_cases ha : (a._id == pid) = true
    · by_cases hpa : (a._parent == tid) = true
      · simp only [List.map_cons, List.filter_cons, ha, if_true, hpa, List.map_cons]
        rw [ih]
      · have hpaf : (a._parent == tid) = false := by
          rw [Bool.not_eq_true] at hpa; exact hpa
        simp only [List.map_cons, List.filter_cons, ha, if_true, hpaf, Bool.false_eq_true,
          if_false]
        exact ih
    · have haf : (a._id == pid) = false := by rw [Bool.not_eq_true] at ha; exact ha
      by_cases hpa : (a._parent == tid) = true
      · simp only [List.map_cons, List.filter_cons, haf, Bool.false_eq_true, if_false, hpa,
          if_true, List.map_cons]
        rw [ih]
      · have hpaf : (a._parent == tid) = false := by
          rw [Bool.not_eq_true] at hpa; exact hpa
        simp only [List.map_cons, List.filter_cons, haf, hpaf, Bool.false_eq_true, if_false]
        exact ih

theorem create_master {gen : Nat → String} (hg : GoodGen gen) {row : Row} {st : BuildState}
    {prev : Option String} {idx : Nat} {value : String}
    (hidx : idx < hierarchyLevels.length) (hvne : value ≠ "")
    (hI : BuildInv gen st) (hP : PrevOK st prev idx)
    (h3 : st.idMap.lookup (mkKey (hierarchyLevels.getD idx "") value prev) = none) :
    BuildInv gen (stCreate gen row st prev value (hierarchyLevels.getD idx "")) ∧
      PrevOK (stCreate gen row st prev value (hierarchyLevels.getD idx ""))
        (some (gen st.counter)) (idx + 1) := by
  obtain ⟨hinj, hnemp, hcf⟩ := hg
  have hN := hI.counter_eq
  have hmsN : (st.outputNodes ++
      [mkNode (gen st.counter) value (hierarchyLevels.getD idx "") prev row]).get?
        st.outputNodes.length =
      some (mkNode (gen st.counter) value (hierarchyLevels.getD idx "") prev row) :=
    List.get?_concat_length _ _
  have hmsid : ∀ k m, (st.outputNodes ++
      [mkNode (gen st.counter) value (hierarchyLevels.getD idx "") prev row]).get? k = some m →
      m._id = gen k := by
    intro k m hk
    rcases get?_snoc hk with ⟨hlt, hget⟩ | ⟨hke, hme⟩
    · exact hI.id_eq k m hget
    · subst hke
      rw [hme, hN]
      rfl
  have hmsinj : ∀ i j n m, (st.outputNodes ++
      [mkNode (gen st.counter) value (hierarchyLevels.getD idx "") prev row]).get? i = some n →
      (st.outputNodes ++
      [mkNode (gen st.counter) value (hierarchyLevels.getD idx "") prev row]).get? j = some m →
      n._id = m._id → i = j := by
    intro i j n m hi hj hid
    apply hinj
    rw [← hmsid i n hi, ← hmsid j m hj, hid]
  have hfresh : ∀ k m, st.outputNodes.get? k = some m → m._id ≠ gen st.counter := by
    intro k m hk heq
    have hklt : k < st.outputNodes.length := get?_lt_of_some hk
    have : k = st.counter := hinj (by rw [← hI.id_eq k m hk, heq])
    omega
  have hranknew : nodeRank (mkNode (gen st.counter) value (hierarchyLevels.getD idx "") prev row)
      = idx := nodeRank_mkNode hidx hvne
  have hkeynew : nodeKey (mkNode (gen st.counter) value (hierarchyLevels.getD idx "") prev row)
      = mkKey (hierarchyLevels.getD idx "") value prev := nodeKey_mkNode hidx hvne
  have hparent_not_new : ∀ k m, (st.outputNodes ++
      [mkNode (gen st.counter) value (hierarchyLevels.getD idx "") prev row]).get? k = some m →
      m._parent ≠ gen st.counter := by
    intro k m hk
    rcases get?_snoc hk with ⟨hlt, hget⟩ | ⟨hke, hme⟩
    · rcases (hI.node_wf k m hget).parent_wf with hpe | ⟨j, pm, hji, hjm, hmid, hrk⟩
      · rw [hpe]
        exact fun h => (hnemp st.counter) h.symm
      · rw [← hmid]
        exact hfresh j pm hjm
    · rw [hme]
      show (mkNode (gen st.counter) value (hierarchyLevels.getD idx "") prev row)._parent ≠ _
      rcases hP with hpn | ⟨p, ip, np, hpe, hget, hid, hrank⟩
      · subst hpn
        show "" ≠ gen st.counter
        exact fun h => (hnemp st.counter) h.symm
      · subst hpe
        show p ≠ gen st.counter
        rw [← hid]
        exact hfresh ip np hget
  have hlen2 : (stCreate gen row st prev value (hierarchyLevels.getD idx "")).outputNodes.length
      = st.outputNodes.length + 1 := by
    rw [stCreate_nodes]
    by_cases hp : jsTruthy prev
    · rw [if_pos hp, linkChild_length]
      simp
    · rw [if_neg hp]
      simp
  have hnodes2N : ∃ node2,
      (stCreate gen row st prev value (hierarchyLevels.getD idx "")).outputNodes.get?
        st.outputNodes.length = some node2 ∧
      nodeCore node2 =
        nodeCore (mkNode (gen st.counter) value (hierarchyLevels.getD idx "") prev row) :=
    create_get?_fwd hmsN
  have hfwd0 : ∀ k m, st.outputNodes.get? k = some m →
      ∃ m2, (stCreate gen row st prev value (hierarchyLevels.getD idx "")).outputNodes.get? k
        = some m2 ∧ nodeCore m2 = nodeCore m := by
    intro k m hk
    exact create_get?_fwd (by rw [List.get?_append (get?_lt_of_some hk)]; exact hk)
  refine ⟨⟨?_, ?_, ?_, ?_, ?_, ?_, ?_⟩, ?_⟩
  · -- counter_eq
    rw [stCreate_counter, hlen2, hN]
  · -- id_eq
    intro i n2 hi
    obtain ⟨n, hn, hcore⟩ := create_get?_inv hi
    rw [core_id hcore]
    exact hmsid i n hn
  · -- key_nodup
    rw [stCreate_idMap, List.map_cons]
    exact List.nodup_cons.2 ⟨lookup_eq_none_not_mem h3, hI.key_nodup⟩
  · -- entry_sound
    intro kv hkv
    rw [stCreate_idMap] at hkv
    rcases List.mem_cons.1 hkv with he | hm
    · obtain ⟨node2, hn2, hcore⟩ := hnodes2N
      refine ⟨st.outputNodes.length, node2, hn2, ?_, ?_⟩
      · rw [he, core_id hcore]
        rfl
      · rw [he, nodeKey_congr hcore, hkeynew]
    · obtain ⟨i, n, hin, hv, hkey⟩ := hI.entry_sound kv hm
      obtain ⟨m2, hm2, hcore⟩ := hfwd0 i n hin
      exact ⟨i, m2, hm2, by rw [hv, core_id hcore], by rw [hkey, nodeKey_congr hcore]⟩
  · -- node_complete
    intro i n2 hi
    obtain ⟨n, hn, hcore⟩ := create_get?_inv hi
    rw [stCreate_idMap]
    rcases get?_snoc hn with ⟨hlt, hget⟩ | ⟨hke, hme⟩
    · exact List.mem_cons_of_mem _
        (by rw [nodeKey_congr hcore, core_id hcore]; exact hI.node_complete i n hget)
    · rw [nodeKey_congr hcore, core_id hcore, hme, hkeynew]
      rw [show (mkNode (gen st.counter) value (hierarchyLevels.getD idx "") prev row)._id
          = gen st.counter from rfl]
      exact List.mem_cons_self _ _
  · -- node_wf
    intro i n2 hi
    obtain ⟨n, hn, hcore⟩ := create_get?_inv hi
    rcases get?_snoc hn with ⟨hlt, hget⟩ | ⟨hke, hme⟩
    · have wf := hI.node_wf i n hget
      refine ⟨by rw [nodeRank_congr hcore]; exact wf.rank_lt,
        by rw [core_title hcore]; exact wf.title_ne,
        by rw [core_fields hcore, nodeRank_congr hcore, core_title hcore]; exact wf.fields_eq,
        ?_⟩
      rcases wf.parent_wf with hpe | ⟨j, m, hji, hjm, hmid, hrk⟩
      · exact Or.inl (by rw [core_parent hcore]; exact hpe)
      · obtain ⟨m2, hm2, hcore2⟩ := hfwd0 j m hjm
        exact Or.inr ⟨j, m2, hji, hm2,
          by rw [core_id hcore2, hmid, core_parent hcore],
          by rw [nodeRank_congr hcore2, nodeRank_congr hcore]; exact hrk⟩
    · subst hke
      rw [hme] at hcore
      refine ⟨by rw [nodeRank_congr hcore, hranknew]; exact hidx,
        by rw [core_title hcore]; exact hvne,
        ?_, ?_⟩
      · rw [core_fields hcore, nodeRank_congr hcore, hranknew, core_title hcore]
        rfl
      · rcases hP with hpn | ⟨p, ip, np, hpe, hget, hid, hrank⟩
        · refine Or.inl ?_
          rw [core_parent hcore, hpn]
          rfl
        · obtain ⟨np2, hnp2, hcore2⟩ := hfwd0 ip np hget
          refine Or.inr ⟨ip, np2, get?_lt_of_some hget, hnp2, ?_, ?_⟩
          · rw [core_id hcore2, hid, core_parent hcore, hpe]
            rfl
          · rw [nodeRank_congr hcore2, nodeRank_congr hcore, hranknew]
            exact Nat.lt_of_lt_of_le hrank (Nat.le_refl idx)
  · -- child_exact
    intro i n2 hi
    rw [stCreate_nodes] at hi ⊢
    by_cases hp : jsTruthy prev
    · -- a parent link is added
      rw [if_pos hp] at hi ⊢
      obtain ⟨p, hpeq⟩ : ∃ p, prev = some p := by
        cases hprev : prev with
        | none => rw [hprev] at hp; exact absurd hp (by simp [jsTruthy])
        | some p => exact ⟨p, rfl⟩
      rcases hP with hpn | ⟨p', ip, pn, hpe, hgetp, hidp, hrankp⟩
      · rw [hpeq] at hpn; exact Option.noConfusion hpn
      have hpp : p' = p := by rw [hpeq] at hpe; injection hpe with h'; exact h'.symm
      subst hpp
      have hgetd : prev.getD "" = pn._id := by rw [hpeq, Option.getD_some, ← hidp]
      have hmsp : (st.outputNodes ++
          [mkNode (gen st.counter) value (hierarchyLevels.getD idx "") prev row]).get? ip
          = some pn := by
        rw [List.get?_append (get?_lt_of_some hgetp)]
        exact hgetp
      have hfind := find?_id_of_get? hmsinj hmsp
      have hcontains : pn._child.contains (gen st.counter) = false := by
        by_contra hcon
        rw [Bool.not_eq_false] at hcon
        have hmem : gen st.counter ∈ pn._child := by
          obtain ⟨a', ha', hba⟩ := List.contains_iff_exists_mem_beq.1 hcon
          rw [show gen st.counter = a' from by simpa using hba]
          exact ha'
        rw [hI.child_exact ip pn hgetp] at hmem
        obtain ⟨m, hmf, hmid⟩ := List.mem_map.1 hmem
        obtain ⟨k, hk⟩ := List.mem_iff_get?.1 (List.mem_of_mem_filter hmf)
        exact hfresh k m hk hmid
      rw [hgetd, linkChild_update hfind hcontains] at hi ⊢
      rw [map_upd_filter]
      rw [List.get?_map] at hi
      cases hms : (st.outputNodes ++
          [mkNode (gen st.counter) value (hierarchyLevels.getD idx "") prev row]).get? i with
      | none => rw [hms] at hi; exact Option.noConfusion hi
      | some n =>
        rw [hms] at hi
        simp only [Option.map_some'] at hi
        injection hi with hn2
        rw [← hn2]
        have hnodepar : (mkNode (gen st.counter) value (hierarchyLevels.getD idx "")
            prev row)._parent = pn._id := by
          rw [show (mkNode (gen st.counter) value (hierarchyLevels.getD idx "")
            prev row)._parent = prev.getD "" from rfl, hgetd]
        rcases get?_snoc hms with ⟨hlt, hget⟩ | ⟨hke, hme⟩
        · by_cases hni : (n._id == pn._id) = true
          · rw [if_pos hni]
            show n._child ++ [gen st.counter] =
              ((st.outputNodes ++
                [mkNode (gen st.counter) value (hierarchyLevels.getD idx "") prev row]).filter
                (fun m => m._parent == n._id)).map (fun m => m._id)
            rw [List.filter_append, List.filter_cons]
            have hqnode : ((mkNode (gen st.counter) value (hierarchyLevels.getD idx "")
                prev row)._parent == n._id) = true := by
              rw [hnodepar, beq_iff_eq]
              exact ((beq_iff_eq).1 hni).symm
            rw [hqnode]
            simp only [if_true, List.filter_nil, List.map_append]
            rw [← hI.child_exact i n hget]
            rfl
          · rw [if_neg hni]
            show n._child =
              ((st.outputNodes ++
                [mkNode (gen st.counter) value (hierarchyLevels.getD idx "") prev row]).filter
                (fun m => m._parent == n._id)).map (fun m => m._id)
            rw [List.filter_append, List.filter_cons]
            have hqnode : ((mkNode (gen st.counter) value (hierarchyLevels.getD idx "")
                prev row)._parent == n._id) = false := by
              rw [hnodepar, beq_eq_false_iff_ne]
              intro hcontra
              rw [beq_iff_eq] at hni
              exact hni hcontra.symm
            rw [hqnode]
            simp only [Bool.false_eq_true, if_false, List.filter_nil, List.map_append,
              List.map_nil, List.append_nil]
            exact hI.child_exact i n hget
        · subst hke
          rw [hme]
          have hni : ((mkNode (gen st.counter) value (hierarchyLevels.getD idx "")
              prev row)._id == pn._id) = false := by
            rw [beq_eq_false_iff_ne]
            show gen st.counter ≠ pn._id
            intro hcontra
            exact hfresh ip pn hgetp hcontra.symm
          rw [if_neg (by rw [hni]; exact Bool.false_ne_true)]
          show ([] : List String) =
            ((st.outputNodes ++
              [mkNode (gen st.counter) value (hierarchyLevels.getD idx "") prev row]).filter
              (fun m => m._parent ==
                (mkNode (gen st.counter) value (hierarchyLevels.getD idx "") prev row)._id)).map
              (fun m => m._id)
          rw [filter_nil_of_all (fun a ha => ?_)]
          · rfl
          · rw [beq_eq_false_iff_ne]
            obtain ⟨k, hk⟩ := List.mem_iff_get?.1 ha
            rw [show (mkNode (gen st.counter) value (hierarchyLevels.getD idx "")
              prev row)._id = gen st.counter from rfl]
            exact hparent_not_new k a hk
    · -- no parent: plain append
      rw [if_neg hp] at hi ⊢
      have hgetd : prev.getD "" = "" := by
        cases hprev : prev with
        | none => rfl
        | some s =>
          rw [hprev] at hp
          rw [Option.getD_some]
          by_contra hs
          exact hp (by simp [jsTruthy, hs])
      rcases get?_snoc hi with ⟨hlt, hget⟩ | ⟨hke, hme⟩
      · rw [List.filter_append, List.filter_cons]
        have hqnode : ((mkNode (gen st.counter) value (hierarchyLevels.getD idx "")
            prev row)._parent == n2._id) = false := by
          rw [show (mkNode (gen st.counter) value (hierarchyLevels.getD idx "")
            prev row)._parent = prev.getD "" from rfl, hgetd, beq_eq_false_iff_ne]
          rw [hI.id_eq i n2 hget]
          exact fun h => (hnemp i) h.symm
        rw [hqnode]
        simp only [Bool.false_eq_true, if_false, List.filter_nil, List.map_append,
          List.map_nil, List.append_nil]
        exact hI.child_exact i n2 hget
      · subst hke
        rw [hme]
        rw [show (mkNode (gen st.counter) value (hierarchyLevels.getD idx "")
            prev row)._child = [] from rfl]
        rw [filter_nil_of_all (fun a ha => ?_)]
        · rfl
        · rw [beq_eq_false_iff_ne]
          obtain ⟨k, hk⟩ := List.mem_iff_get?.1 ha
          rw [show (mkNode (gen st.counter) value (hierarchyLevels.getD idx "")
            prev row)._id = gen st.counter from rfl]
          exact hparent_not_new k a hk
  · -- PrevOK out
    obtain ⟨node2, hn2, hcore⟩ := hnodes2N
    refine Or.inr ⟨gen st.counter, st.outputNodes.length, node2, rfl, hn2, ?_, ?_⟩
    · rw [core_id hcore]
      rfl
    · rw [nodeRank_congr hcore, hranknew]
      exact Nat.lt_succ_self idx

theorem step_master {gen : Nat → String} (hg : GoodGen gen) {row : Row} {st : BuildState}
    {prev : Option String} {idx : Nat} (hidx : idx < hierarchyLevels.length)
    (hI : BuildInv gen st) (hP : PrevOK st prev idx) :
    BuildInv gen (processLevel gen row st prev idx (hierarchyLevels.getD idx "")).1 ∧
      PrevOK (processLevel gen row st prev idx (hierarchyLevels.getD idx "")).1
        (processLevel gen row st prev idx (hierarchyLevels.getD idx "")).2 (idx + 1) := by
  cases hc : rowCell row idx with
  | none => rw [processLevel_none hc]; exact ⟨hI, prevOK_mono hP (Nat.le_succ _)⟩
  | some raw =>
    by_cases h2 : jsTrim raw = ""
    · rw [processLevel_blank hc h2]; exact ⟨hI, prevOK_mono hP (Nat.le_succ _)⟩
    · cases h3 : st.idMap.lookup (mkKey (hierarchyLevels.getD idx "") (jsTrim raw) prev) with
      | some v =>
        rw [processLevel_hit hc h2 h3]
        refine ⟨hI, Or.inr ?_⟩
        obtain ⟨j, n, hin, hv, hkey⟩ := hI.entry_sound _ (mem_of_lookup_eq_some h3)
        have hkey' : mkKey (hierarchyLevels.getD idx "") (jsTrim raw) prev
            = mkKey (hierarchyLevels.getD (nodeRank n) "") n.title (nodePrev n) := hkey
        have hrank : idx = nodeRank n :=
          mkKey_rank_inj hidx (hI.node_wf j n hin).rank_lt hkey'
        exact ⟨v, j, n, rfl, hin, hv.symm, by rw [← hrank]; exact Nat.lt_succ_self idx⟩
      | none =>
        rw [processLevel_miss hc h2 h3]
        exact create_master ⟨hg.1, hg.2.1, hg.2.2⟩ hidx h2 hI hP h3

theorem processRow_eq (gen : Nat → String) (st : BuildState) (row : Row) :
    processRow gen st row =
      (levelStep gen row (levelStep gen row (levelStep gen row (levelStep gen row
        (levelStep gen row (st, (none : Option String)) (0, "L1 - Line of Business"))
        (1, "L2 - Process Group")) (2, "L3 - Scope Item")) (3, "L4 - Process Variant"))
        (4, "L5 - Process Step")).1 := rfl

theorem processRow_master {gen : Nat → String} (hg : GoodGen gen) {st : BuildState} {row : Row}
    (hI : BuildInv gen st) : BuildInv gen (processRow gen st row) := by
  rw [processRow_eq]
  have s1 := @step_master gen hg row _ _ 0 (by decide) hI (Or.inl rfl)
  have s2 := @step_master gen hg row _ _ 1 (by decide) s1.1 s1.2
  have s3 := @step_master gen hg row _ _ 2 (by decide) s2.1 s2.2
  have s4 := @step_master gen hg row _ _ 3 (by decide) s3.1 s3.2
  have s5 := @step_master gen hg row _ _ 4 (by decide) s4.1 s4.2
  exact s5.1

theorem buildState_master (gen : Nat → String) (hg : GoodGen gen) (rows : List Row) :
    BuildInv gen (buildState gen rows) := by
  unfold buildState
  induction rows using List.reverseRecOn with
  | nil => exact inv_init gen
  | append_singleton t r ih =>
    rw [List.foldl_append, List.foldl_cons, List.foldl_nil]
    exact processRow_master hg ih

/-- The composite key string an event's triple denotes. -/
def mkKeyOfEvent (e : ResEvent) : String :=
  mkKey (hierarchyLevels.getD e.levelIdx "") e.value e.prevId

theorem mkKey_prevNorm (l v : String) (p : Option String) :
    mkKey l v (prevNorm p) = mkKey l v p := by
  unfold prevNorm
  by_cases hp : jsTruthy p
  · rw [if_pos hp]
  · rw [if_neg hp]
    unfold mkKey
    rw [if_neg hp, if_neg (by simp [jsTruthy])]

theorem prevNorm_shape {p : Option String} :
    prevNorm p = none ∨ ∃ s, prevNorm p = some s ∧ p = some s ∧ s ≠ "" := by
  cases p with
  | none => exact Or.inl rfl
  | some s =>
    by_cases hs : s = ""
    · subst hs
      refine Or.inl ?_
      unfold prevNorm
      rw [if_neg (by simp [jsTruthy])]
    · refine Or.inr ⟨s, ?_, rfl, hs⟩
      unfold prevNorm
      rw [if_pos (by simp [jsTruthy, hs])]

theorem firstOccurrences_append_singleton (l : List String) (x : String) :
    firstOccurrences (l ++ [x]) =
      if x ∈ firstOccurrences l then firstOccurrences l else firstOccurrences l ++ [x] := by
  unfold firstOccurrences
  rw [List.foldl_append]
  rfl

theorem linkChild_map_id (ns : List Node) (pid cid : String) :
    (linkChild ns pid cid).map (fun n => n._id) = ns.map (fun n => n._id) := by
  cases hf : ns.find? (fun nd => nd._id == pid) with
  | none => unfold linkChild; rw [hf]
  | some pn =>
    unfold linkChild
    rw [hf]
    dsimp only
    by_cases hc : pn._child.contains cid
    · rw [if_pos hc]
    · rw [if_neg hc]
      rw [List.map_map]
      refine List.map_congr_left (fun x _ => ?_)
      show ((fun nd => if nd._id == pid then
        { nd with _child := nd._child ++ [cid] } else nd) x)._id = x._id
      dsimp only
      by_cases hx : (x._id == pid) = true
      · rw [if_pos hx]
      · rw [if_neg hx]

theorem create_ids (gen : Nat → String) (row : Row) (st : BuildState)
    (prev : Option String) (value level : String) :
    (stCreate gen row st prev value level).outputNodes.map (fun n => n._id)
      = st.outputNodes.map (fun n => n._id) ++ [gen st.counter] := by
  rw [stCreate_nodes]
  by_cases hp : jsTruthy prev
  · rw [if_pos hp, linkChild_map_id, List.map_append]
    rfl
  · rw [if_neg hp, List.map_append]
    rfl

/-- Soundness of the resolution trace against the state: every event's
key/resolved-id pair is in the dedup index, events carry real levels,
non-blank values satisfying `P`, and generated parent ids; and the output
ids are the first occurrences of the resolved ids, in order. -/
structure TraceOK (gen : Nat → String) (P : String → Prop) (st : BuildState)
    (tr : List ResEvent) : Prop where
  ev_sound : ∀ e ∈ tr, (mkKeyOfEvent e, e.resolvedId) ∈ st.idMap ∧
    e.levelIdx < hierarchyLevels.length ∧ e.value ≠ "" ∧ P e.value ∧
    (e.prevId = none ∨ ∃ j, e.prevId = some (gen j))
  title_P : ∀ i n, st.outputNodes.get? i = some n → P n.title
  order_eq : st.outputNodes.map (fun n => n._id)
    = firstOccurrences (tr.map (fun e => e.resolvedId))

theorem traceOK_init (gen : Nat → String) (P : String → Prop) :
    TraceOK gen P initState [] where
  ev_sound := fun e he => absurd he (List.not_mem_nil e)
  title_P := fun i n hi => absurd hi (by simp [initState])
  order_eq := rfl

theorem step_trace {gen : Nat → String} (hg : GoodGen gen) {row : Row} {st : BuildState}
    {prev : Option String} {idx : Nat} {tr : List ResEvent} {P : String → Prop}
    (hidx : idx < hierarchyLevels.length)
    (hI : BuildInv gen st) (hP : PrevOK st prev idx) (hT : TraceOK gen P st tr)
    (hrowP : ∀ raw, rowCell row idx = some raw → jsTrim raw ≠ "" → P (jsTrim raw)) :
    TraceOK gen P (processLevel gen row st prev idx (hierarchyLevels.getD idx "")).1
      (tr ++ levelEvents gen row st prev idx (hierarchyLevels.getD idx "")) := by
  cases hc : rowCell row idx with
  | none =>
    rw [processLevel_none hc, levelEvents_none hc, List.append_nil]
    exact hT
  | some raw =>
    by_cases h2 : jsTrim raw = ""
    · rw [processLevel_blank hc h2, levelEvents_blank hc h2, List.append_nil]
      exact hT
    · have hprevshape : prevNorm prev = none ∨ ∃ j, prevNorm prev = some (gen j) := by
        rcases prevNorm_shape (p := prev) with h | ⟨s, hps, hpsome, hsne⟩
        · exact Or.inl h
        · rcases hP with hpn | ⟨p', ipx, np, hpe, hget, hid, hrank⟩
          · rw [hpsome] at hpn
            exact Option.noConfusion hpn
          · have hsp : s = p' := by simpa [hpsome] using hpe
            subst hsp
            exact Or.inr ⟨ipx, by rw [hps, ← hid, hI.id_eq ipx np hget]⟩
      cases h3 : st.idMap.lookup (mkKey (hierarchyLevels.getD idx "") (jsTrim raw) prev) with
      | some v =>
        rw [processLevel_hit hc h2 h3, levelEvents_hit hc h2 h3]
        constructor
        · intro e he
          rcases List.mem_append.1 he with hold | hnew
          · exact hT.ev_sound e hold
          · have he' : e = ⟨idx, jsTrim raw, prevNorm prev, v⟩ := by simpa using hnew
            subst he'
            refine ⟨?_, hidx, h2, hrowP raw hc h2, hprevshape⟩
            show (mkKey (hierarchyLevels.getD idx "") (jsTrim raw) (prevNorm prev), v) ∈ st.idMap
            rw [mkKey_prevNorm]
            exact mem_of_lookup_eq_some h3
        · exact hT.title_P
        · have hvmem : v ∈ firstOccurrences (tr.map (fun e => e.resolvedId)) := by
            rw [← hT.order_eq]
            obtain ⟨j, n, hin, hv, _⟩ := hI.entry_sound _ (mem_of_lookup_eq_some h3)
            exact List.mem_map.2 ⟨n, List.mem_iff_get?.2 ⟨j, hin⟩, hv.symm⟩
          rw [List.map_append]
          show st.outputNodes.map (fun n => n._id)
            = firstOccurrences (tr.map (fun e => e.resolvedId) ++ [v])
          rw [firstOccurrences_append_singleton, if_pos hvmem]
          exact hT.order_eq
      | none =>
        rw [processLevel_miss hc h2 h3, levelEvents_miss hc h2 h3]
        have hfresh : gen st.counter ∉ st.outputNodes.map (fun n => n._id) := by
          intro hmem
          obtain ⟨m, hm, hid⟩ := List.mem_map.1 hmem
          obtain ⟨k, hk⟩ := List.mem_iff_get?.1 hm
          have hklt := get?_lt_of_some hk
          have hkc : k = st.counter := hg.1 (by rw [← hI.id_eq k m hk, hid])
          rw [hI.counter_eq] at hkc
          omega
        constructor
        · intro e he
          rcases List.mem_append.1 he with hold | hnew
          · obtain ⟨hmem, hrest⟩ := hT.ev_sound e hold
            exact ⟨by rw [stCreate_idMap]; exact List.mem_cons_of_mem _ hmem, hrest⟩
          · have he' : e = ⟨idx, jsTrim raw, prevNorm prev, gen st.counter⟩ := by simpa using hnew
            subst he'
            refine ⟨?_, hidx, h2, hrowP raw hc h2, hprevshape⟩
            show (mkKey (hierarchyLevels.getD idx "") (jsTrim raw) (prevNorm prev), gen st.counter)
              ∈ (stCreate gen row st prev (jsTrim raw) (hierarchyLevels.getD idx "")).idMap
            rw [mkKey_prevNorm, stCreate_idMap]
            exact List.mem_cons_self _ _
        · intro i n hi
          obtain ⟨n', hn', hcore⟩ := create_get?_inv hi
          rcases get?_snoc hn' with ⟨hlt, hget⟩ | ⟨hke, hme⟩
          · rw [core_title hcore]
            exact hT.title_P i n' hget
          · rw [core_title hcore, hme]
            exact hrowP raw hc h2
        · rw [List.map_append, create_ids]
          have hnew : firstOccurrences (tr.map (fun e => e.resolvedId) ++ [gen st.counter])
              = firstOccurrences (tr.map (fun e => e.resolvedId)) ++ [gen st.counter] := by
            rw [firstOccurrences_append_singleton,
              if_neg (by rw [← hT.order_eq]; exact hfresh)]
          show st.outputNodes.map (fun n => n._id) ++ [gen st.counter]
            = firstOccurrences (tr.map (fun e => e.resolvedId) ++ [gen st.counter])
          rw [hnew, hT.order_eq]

/-- Every non-blank trimmed level value of the row satisfies `P`. -/
def RowValuesP (P : String → Prop) (row : Row) : Prop :=
  ∀ idx raw, rowCell row idx = some raw → jsTrim raw ≠ "" → P (jsTrim raw)

theorem stepT_all {gen : Nat → String} (hg : GoodGen gen) {row : Row} {st : BuildState}
    {prev : Option String} {idx : Nat} {tr : List ResEvent} {P : String → Prop}
    (hidx : idx < hierarchyLevels.length)
    (h : BuildInv gen st ∧ PrevOK st prev idx ∧ TraceOK gen P st tr)
    (hrow : RowValuesP P row) :
    BuildInv gen (stepT gen row ((st, prev), tr) (idx, hierarchyLevels.getD idx "")).1.1 ∧
      PrevOK (stepT gen row ((st, prev), tr) (idx, hierarchyLevels.getD idx "")).1.1
        (stepT gen row ((st, prev), tr) (idx, hierarchyLevels.getD idx "")).1.2 (idx + 1) ∧
      TraceOK gen P (stepT gen row ((st, prev), tr) (idx, hierarchyLevels.getD idx "")).1.1
        (stepT gen row ((st, prev), tr) (idx, hierarchyLevels.getD idx "")).2 := by
  obtain ⟨hI, hP, hT⟩ := h
  have hs := @step_master gen hg row st prev idx hidx hI hP
  exact ⟨hs.1, hs.2, step_trace hg hidx hI hP hT (fun raw h1 h2 => hrow idx raw h1 h2)⟩

theorem processRowT_eq (gen : Nat → String) (st : BuildState) (tr : List ResEvent) (row : Row) :
    processRowT gen (st, tr) row =
      ((stepT gen row (stepT gen row (stepT gen row (stepT gen row (stepT gen row
        ((st, (none : Option String)), tr) (0, "L1 - Line of Business"))
        (1, "L2 - Process Group")) (2, "L3 - Scope Item")) (3, "L4 - Process Variant"))
        (4, "L5 - Process Step")).1.1,
       (stepT gen row (stepT gen row (stepT gen row (stepT gen row (stepT gen row
        ((st, (none : Option String)), tr) (0, "L1 - Line of Business"))
        (1, "L2 - Process Group")) (2, "L3 - Scope Item")) (3, "L4 - Process Variant"))
        (4, "L5 - Process Step")).2) := rfl

theorem processRowT_master {gen : Nat → String} (hg : GoodGen gen) {st : BuildState}
    {tr : List ResEvent} {row : Row} {P : String → Prop}
    (hI : BuildInv gen st) (hT : TraceOK gen P st tr) (hrow : RowValuesP P row) :
    BuildInv gen (processRowT gen (st, tr) row).1 ∧
      TraceOK gen P (processRowT gen (st, tr) row).1 (processRowT gen (st, tr) row).2 := by
  rw [processRowT_eq]
  have s1 := @stepT_all gen hg row _ _ 0 _ _ (by decide) ⟨hI, Or.inl rfl, hT⟩ hrow
  have s2 := @stepT_all gen hg row _ _ 1 _ _ (by decide) ⟨s1.1, s1.2.1, s1.2.2⟩ hrow
  have s3 := @stepT_all gen hg row _ _ 2 _ _ (by decide) ⟨s2.1, s2.2.1, s2.2.2⟩ hrow
  have s4 := @stepT_all gen hg row _ _ 3 _ _ (by decide) ⟨s3.1, s3.2.1, s3.2.2⟩ hrow
  have s5 := @stepT_all gen hg row _ _ 4 _ _ (by decide) ⟨s4.1, s4.2.1, s4.2.2⟩ hrow
  exact ⟨s5.1, s5.2.2⟩

theorem buildT_master (gen : Nat → String) (hg : GoodGen gen) {P : String → Prop}
    (rows : List Row) (hrows : ∀ row ∈ rows, RowValuesP P row) :
    BuildInv gen (buildT gen rows).1 ∧
      TraceOK gen P (buildT gen rows).1 (buildT gen rows).2 := by
  unfold buildT
  induction rows using List.reverseRecOn with
  | nil => exact ⟨inv_init gen, traceOK_init gen P⟩
  | append_singleton t r ih =>
    rw [List.foldl_append, List.foldl_cons, List.foldl_nil]
    have iht := ih (fun row hr => hrows row (List.mem_append.2 (Or.inl hr)))
    exact processRowT_master hg iht.1 iht.2
      (hrows r (List.mem_append.2 (Or.inr (List.mem_singleton.2 rfl))))

theorem goodGen_genA : GoodGen genA := by
  refine ⟨?_, ?_, ?_⟩
  · intro m n h
    have hd : List.replicate (m + 1) 'a' = List.replicate (n + 1) 'a' := congrArg String.data h
    have hl := congrArg List.length hd
    simpa using hl
  · intro n h
    have hd : List.replicate (n + 1) 'a' = ([] : List Char) := congrArg String.data h
    have hl := congrArg List.length hd
    simp at hl
  · intro n hmem
    exact absurd (List.eq_of_mem_replicate hmem) (by decide)

theorem goodGen_genB : GoodGen genB := by
  refine ⟨?_, ?_, ?_⟩
  · intro m n h
    have hd : List.replicate (m + 1) 'b' = List.replicate (n + 1) 'b' := congrArg String.data h
    have hl := congrArg List.length hd
    simpa using hl
  · intro n h
    have hd : List.replicate (n + 1) 'b' = ([] : List Char) := congrArg String.data h
    have hl := congrArg List.length hd
    simp at hl
  · intro n hmem
    exact absurd (List.eq_of_mem_replicate hmem) (by decide)

theorem firstOccurrences_subset : ∀ (l : List String) (x : String),
    x ∈ firstOccurrences l → x ∈ l := by
  have haux : ∀ (l acc : List String) (x : String),
      x ∈ l.foldl (fun acc k => if k ∈ acc then acc else acc ++ [k]) acc →
      x ∈ acc ∨ x ∈ l := by
    intro l
    induction l with
    | nil => intro acc x h; exact Or.inl h
    | cons a t ih =>
      intro acc x h
      rw [List.foldl_cons] at h
      rcases ih _ x h with hacc | ht
      · by_cases ha : a ∈ acc
        · rw [if_pos ha] at hacc
          exact Or.inl hacc
        · rw [if_neg ha] at hacc
          rcases List.mem_append.1 hacc with h1 | h2
          · exact Or.inl h1
          · rw [List.mem_singleton] at h2
            exact Or.inr (List.mem_cons.2 (Or.inl h2))
      · exact Or.inr (List.mem_cons_of_mem a ht)
  intro l x h
  rcases haux l [] x h with h0 | hl
  · exact absurd h0 (List.not_mem_nil x)
  · exact hl

theorem nodup_map_id_of {ns : List Node}
    (h : ∀ i j n m, ns.get? i = some n → ns.get? j = some m → n._id = m._id → i = j) :
    (ns.map (fun n => n._id)).Nodup := by
  rw [List.nodup_iff_injective_get]
  intro a b heq
  have ha : a.1 < ns.length := by
    have := a.2
    simpa using this
  have hb : b.1 < ns.length := by
    have := b.2
    simpa using this
  have hga : (ns.map (fun n => n._id)).get a = (ns.get ⟨a.1, ha⟩)._id := List.get_map _
  have hgb : (ns.map (fun n => n._id)).get b = (ns.get ⟨b.1, hb⟩)._id := List.get_map _
  have hab : a.1 = b.1 := by
    apply h a.1 b.1 (ns.get ⟨a.1, ha⟩) (ns.get ⟨b.1, hb⟩)
      (List.get?_eq_get ha) (List.get?_eq_get hb)
    rw [← hga, ← hgb, heq]
  exact Fin.ext hab

theorem rowValuesP_of {P : String → Prop} {row : Row}
    (h : ∀ i < row.levels.length, ∀ raw, rowCell row i = some raw →
      jsTrim raw ≠ "" → P (jsTrim raw)) :
    RowValuesP P row := by
  intro idx raw hcell
  by_cases hlt : idx < row.levels.length
  · exact h idx hlt raw hcell
  · unfold rowCell at hcell
    rw [List.getD_eq_default _ _ (Nat.le_of_not_lt hlt)] at hcell
    exact absurd hcell (by simp)

/-- The metadata a row without metadata cells yields: all defaults. -/
def defaultMeta : NodeMeta :=
  { fieldID := "", businessRole := "", fioriRecommendations := "", insights := "",
    stakeholders := "", materiality := 0, descriptionText := "" }

/-- The L1 node the gap row `{L1:"A", L3:"Z"}` produces under `genA`. -/
def nodeA_AZ : Node :=
  { _id := "a", title := "A", _parent := "", _child := ["aa"],
    levelFields := ["A", "", "", "", ""], meta := defaultMeta }

/-- The L3 node the gap row `{L1:"A", L3:"Z"}` produces under `genA`:
parented directly to the L1 node across the missing L2. -/
def nodeZ_AZ : Node :=
  { _id := "aa", title := "Z", _parent := "a", _child := [],
    levelFields := ["", "", "Z", "", ""], meta := defaultMeta }

/-- C2: a level whose cell is absent or blank creates no node and leaves
`previousLevelId` untouched, so the next populated level of the row
chains to the last resolved node; concretely, the gap row
`{L1:"A", L3:"Z"}` yields exactly the two nodes "A" (L1, no parent) and
"Z" (L3, parented to "A"'s id) with "Z" in "A"'s child list. -/
theorem C2_gap_tolerance :
    (∀ (gen : Nat → String) (row : Row) (st : BuildState) (prev : Option String)
      (idx : Nat) (level : String), EmptyCell row idx →
        processLevel gen row st prev idx level = (st, prev)) ∧
    build genA [rowAZ] = [nodeA_AZ, nodeZ_AZ] :=
  ⟨fun _ _ _ _ _ _ h => processLevel_skip h, by decide⟩

/-- C3: a node's id, title, parent, level fields and metadata are fixed at
creation and never overwritten by later rows (only the child list may
grow); concretely, two rows that both lead to node "A" at L1 with
`Description` values "first" then "second" leave the node's description
at "first". -/
theorem C3_metadata_first_wins :
    (∀ (gen : Nat → String) (rows₁ rows₂ : List Row) (i : Nat) (n : Node),
      (build gen rows₁).get? i = some n →
      ∃ m, (build gen (rows₁ ++ rows₂)).get? i = some m ∧ nodeCore m = nodeCore n) ∧
    (build genA [rowADesc1, rowADesc2]).map (fun n => n.meta.descriptionText) = ["first"] :=
  ⟨fun gen r1 r2 i n h => by
      obtain ⟨m, hm, hle⟩ := build_extend_nodesLE gen r1 r2 i n h
      exact ⟨m, hm, hle.1.symm⟩,
   by decide⟩

/-- C9: a row whose level cells are all absent or blank leaves the build
state exactly as it was — zero nodes, no child-list or metadata change —
and erasing such a row from the sequence does not change the output at
all; concretely for `rowEmpty`. -/
theorem C9_empty_rows :
    (∀ (gen : Nat → String) (st : BuildState) (row : Row), EmptyRow row →
      processRow gen st row = st) ∧
    (∀ (gen : Nat → String) (rows₁ rows₂ : List Row) (row : Row), EmptyRow row →
      build gen (rows₁ ++ row :: rows₂) = build gen (rows₁ ++ rows₂)) ∧
    EmptyRow rowEmpty ∧
    build genA [rowA, rowEmpty] = build genA [rowA] :=
  ⟨fun _ _ _ h => processRow_empty h,
   fun gen r1 r2 row h => build_empty_row_erased gen r1 r2 row h,
   emptyRow_of (by decide),
   by decide⟩

/-- C10: parents precede their children in the output: any node with a
non-empty parent reference is preceded by a node carrying that id, so
the sequence is topologically ordered and parent references resolve. -/
theorem C10_parents_precede (gen : Nat → String) (rows : List Row) (i : Nat) (n : Node)
    (hi : (build gen rows).get? i = some n) (hp : n._parent ≠ "") :
    ∃ j m, j < i ∧ (build gen rows).get? j = some m ∧ m._id = n._parent :=
  (buildState_light gen rows).parent_earlier i n hi hp

/-- C10 witness: the gap row's "Z" node at position 1 has its parent "A"
at position 0. -/
theorem C10_parents_precede_witness :
    ∃ j m, j < 1 ∧ (build genA [rowAZ]).get? j = some m ∧ m._id = nodeZ_AZ._parent :=
  C10_parents_precede genA [rowAZ] 1 nodeZ_AZ (by decide) (by decide)

/-- C7 counterexample: the row `{L2:"X"}` (L1 absent) produces a node
with an empty parent reference at rank 2, so "parentId empty exactly when
rank 1" fails. -/
theorem C7_counterexample :
    ∃ n ∈ build genA [rowL2X], n._parent = "" ∧ nodeRank n ≠ 0 := by decide

/-- C7 amended: a rank-1 node always has an empty parentId, and a
non-empty parentId is the id of the owning node (the node whose childIds
holds this node, at a strictly lower rank); but a node whose row had no
populated lower level is parentless at any rank, so empty parentId does
not imply rank 1. -/
theorem C7_parent_amended (gen : Nat → String) (rows : List Row) (hg : GoodGen gen) :
    (∀ n ∈ build gen rows, nodeRank n = 0 → n._parent = "") ∧
    (∀ n ∈ build gen rows, n._parent ≠ "" →
      ∃ p ∈ build gen rows, p._id = n._parent ∧ n._id ∈ p._child ∧ nodeRank p < nodeRank n) := by
  have hbinv := buildState_master gen hg rows
  constructor
  · intro n hn hrank
    obtain ⟨i, hi⟩ := List.mem_iff_get?.1 hn
    rcases (hbinv.node_wf i n hi).parent_wf with hpe | ⟨j, m, hji, hjm, hmid, hrk⟩
    · exact hpe
    · rw [hrank] at hrk
      exact absurd hrk (Nat.not_lt_zero _)
  · intro n hn hp
    obtain ⟨i, hi⟩ := List.mem_iff_get?.1 hn
    rcases (hbinv.node_wf i n hi).parent_wf with hpe | ⟨j, m, hji, hjm, hmid, hrk⟩
    · exact absurd hpe hp
    · refine ⟨m, List.mem_iff_get?.2 ⟨j, hjm⟩, hmid, ?_, hrk⟩
      rw [hbinv.child_exact j m hjm]
      exact List.mem_map.2 ⟨n, List.mem_filter.2 ⟨hn,
        by rw [beq_iff_eq]; exact hmid.symm⟩, rfl⟩

/-- C7 witness: the amended statement at the gap row. -/
theorem C7_parent_amended_witness :
    (∀ n ∈ build genA [rowAZ], nodeRank n = 0 → n._parent = "") ∧
    (∀ n ∈ build genA [rowAZ], n._parent ≠ "" →
      ∃ p ∈ build genA [rowAZ], p._id = n._parent ∧ n._id ∈ p._child ∧
        nodeRank p < nodeRank n) :=
  C7_parent_amended genA [rowAZ] goodGen_genA

/-- C6 counterexample: in the gap row `{L1:"A", L3:"Z"}`, "Z" at rank 3
is parented by "A" at rank 1, not rank 2, so "a node at rank i is only
parented by a node at rank i-1" fails. -/
theorem C6_counterexample :
    ∃ n ∈ build genA [rowAZ], ∃ p ∈ build genA [rowAZ],
      p._id = n._parent ∧ nodeRank p ≠ nodeRank n - 1 := by decide

/-- C6 amended: a node's parent is the node resolved at the nearest
previously-populated (hence strictly lower-rank) level of the same row —
strictly lower rank, but not necessarily rank i-1, because absent levels
are skipped. -/
theorem C6_parent_rank (gen : Nat → String) (rows : List Row) (hg : GoodGen gen) :
    ∀ n ∈ build gen rows, n._parent ≠ "" →
      ∃ p ∈ build gen rows, p._id = n._parent ∧ nodeRank p < nodeRank n := by
  have hbinv := buildState_master gen hg rows
  intro n hn hp
  obtain ⟨i, hi⟩ := List.mem_iff_get?.1 hn
  rcases (hbinv.node_wf i n hi).parent_wf with hpe | ⟨j, m, hji, hjm, hmid, hrk⟩
  · exact absurd hpe hp
  · exact ⟨m, List.mem_iff_get?.2 ⟨j, hjm⟩, hmid, hrk⟩

/-- C6 witness: "Z"'s parent in the gap row sits at a strictly lower
rank. -/
theorem C6_parent_rank_witness :
    ∃ p ∈ build genA [rowAZ], p._id = nodeZ_AZ._parent ∧ nodeRank p < nodeRank nodeZ_AZ :=
  C6_parent_rank genA [rowAZ] goodGen_genA nodeZ_AZ (by decide) (by decide)

/-- C4: with distinct fresh ids, every node's childIds list is exactly
the ids of the nodes parented to it, in creation (first-encounter) order
with no duplicates; every parented node appears exactly once in its
parent's childIds; and every id in a childIds list belongs to a node of
the output whose parentId matches. -/
theorem C4_child_integrity (gen : Nat → String) (rows : List Row) (hg : GoodGen gen) :
    ((build gen rows).map (fun n => n._id)).Nodup ∧
    (∀ n ∈ build gen rows,
      n._child = ((build gen rows).filter (fun m => m._parent == n._id)).map
        (fun m => m._id)) ∧
    (∀ n ∈ build gen rows, n._parent ≠ "" →
      ∃ p ∈ build gen rows, p._id = n._parent ∧ p._child.count n._id = 1) ∧
    (∀ p ∈ build gen rows, ∀ c ∈ p._child,
      ∃ m ∈ build gen rows, m._id = c ∧ m._parent = p._id) := by
  have hbinv := buildState_master gen hg rows
  have hidsinj : ∀ i j n m, (build gen rows).get? i = some n →
      (build gen rows).get? j = some m → n._id = m._id → i = j :=
    fun i j n m hi hj hid =>
      hg.1 (by rw [← hbinv.id_eq i n hi, ← hbinv.id_eq j m hj, hid])
  have hnodup := nodup_map_id_of hidsinj
  refine ⟨hnodup, ?_, ?_, ?_⟩
  · intro n hn
    obtain ⟨i, hi⟩ := List.mem_iff_get?.1 hn
    exact hbinv.child_exact i n hi
  · intro n hn hp
    obtain ⟨i, hi⟩ := List.mem_iff_get?.1 hn
    rcases (hbinv.node_wf i n hi).parent_wf with hpe | ⟨j, m, hji, hjm, hmid, hrk⟩
    · exact absurd hpe hp
    · refine ⟨m, List.mem_iff_get?.2 ⟨j, hjm⟩, hmid, ?_⟩
      rw [hbinv.child_exact j m hjm]
      have hsub : (((build gen rows).filter (fun x => x._parent == m._id)).map
          (fun x => x._id)).Sublist ((build gen rows).map (fun x => x._id)) :=
        (List.filter_sublist _).map _
      apply List.count_eq_one_of_mem (List.Nodup.sublist hsub hnodup)
      exact List.mem_map.2 ⟨n, List.mem_filter.2 ⟨hn,
        by rw [beq_iff_eq]; exact hmid.symm⟩, rfl⟩
  · intro p hp c hc
    obtain ⟨j, hj⟩ := List.mem_iff_get?.1 hp
    rw [hbinv.child_exact j p hj] at hc
    obtain ⟨m, hmf, hmid⟩ := List.mem_map.1 hc
    obtain ⟨hmmem, hmcond⟩ := List.mem_filter.1 hmf
    exact ⟨m, hmmem, hmid, (beq_iff_eq).1 hmcond⟩

/-- C4 witness: child-list integrity at the gap row. -/
theorem C4_child_integrity_witness :
    ((build genA [rowAZ]).map (fun n => n._id)).Nodup ∧
    (∀ n ∈ build genA [rowAZ],
      n._child = ((build genA [rowAZ]).filter (fun m => m._parent == n._id)).map
        (fun m => m._id)) ∧
    (∀ n ∈ build genA [rowAZ], n._parent ≠ "" →
      ∃ p ∈ build genA [rowAZ], p._id = n._parent ∧ p._child.count n._id = 1) ∧
    (∀ p ∈ build genA [rowAZ], ∀ c ∈ p._child,
      ∃ m ∈ build genA [rowAZ], m._id = c ∧ m._parent = p._id) :=
  C4_child_integrity genA [rowAZ] goodGen_genA

/-- C5: the output lists nodes in creation order — the order in which
each key is first resolved scanning rows top-to-bottom and levels in
ascending rank (the trace order), keeping the first occurrence of each
resolved node. -/
theorem C5_creation_order (gen : Nat → String) (rows : List Row) (hg : GoodGen gen) :
    (build gen rows).map (fun n => n._id)
      = firstOccurrences ((buildTrace gen rows).map (fun e => e.resolvedId)) := by
  have h := buildT_master gen hg (P := fun _ => True) rows
    (fun _ _ _ _ _ _ => trivial)
  have ho := h.2.order_eq
  rw [buildT_fst] at ho
  exact ho

/-- C5 witness: creation order at a two-row instance. -/
theorem C5_creation_order_witness :
    (build genA [rowA, rowAB]).map (fun n => n._id)
      = firstOccurrences ((buildTrace genA [rowA, rowAB]).map (fun e => e.resolvedId)) :=
  C5_creation_order genA [rowA, rowAB] goodGen_genA

theorem nodePrev_getD (n : Node) : (nodePrev n).getD "" = n._parent := by
  unfold nodePrev
  by_cases h : n._parent = ""
  · rw [if_pos h, h]
    rfl
  · rw [if_neg h]
    rfl

theorem mkKeyOfEvent_congr {e1 e2 : ResEvent} (h : evTriple e1 = evTriple e2) :
    mkKeyOfEvent e1 = mkKeyOfEvent e2 := by
  unfold mkKeyOfEvent
  have h1 : e1.levelIdx = e2.levelIdx := congrArg Prod.fst h
  have h2 : e1.value = e2.value := congrArg (fun t => t.2.1) h
  have h3 : e1.prevId = e2.prevId := congrArg (fun t => t.2.2) h
  rw [h1, h2, h3]

/-- An event of a colon-free build resolves to the unique node whose
rank, title and parent are exactly the event's key triple. -/
theorem event_resolves {gen : Nat → String} (hg : GoodGen gen) {rows : List Row}
    (hrows : ∀ row ∈ rows, RowValuesP ColonFree row) {e : ResEvent}
    (he : e ∈ buildTrace gen rows) :
    ∃ i n, (build gen rows).get? i = some n ∧ n._id = e.resolvedId ∧
      nodeRank n = e.levelIdx ∧ n.title = e.value ∧ nodePrev n = e.prevId := by
  obtain ⟨hI, hT⟩ := buildT_master gen hg (P := ColonFree) rows hrows
  rw [buildT_fst] at hI hT
  obtain ⟨hmem, hidx, hvne, hPv, hprevshape⟩ := hT.ev_sound e he
  obtain ⟨j, n, hjn, hres, hkey⟩ := hI.entry_sound _ hmem
  have wf := hI.node_wf j n hjn
  have hkey' : mkKey (hierarchyLevels.getD e.levelIdx "") e.value e.prevId
      = mkKey (hierarchyLevels.getD (nodeRank n) "") n.title (nodePrev n) := hkey
  have hrank : e.levelIdx = nodeRank n := mkKey_rank_inj hidx wf.rank_lt hkey'
  have hwf1 : PrevWF e.prevId := by
    rcases hprevshape with h | ⟨j', hpj⟩
    · exact Or.inl h
    · exact Or.inr ⟨gen j', hpj, hg.2.1 j', hg.2.2 j'⟩
  have hwf2 : PrevWF (nodePrev n) := by
    by_cases hpar : n._parent = ""
    · refine Or.inl ?_
      unfold nodePrev
      rw [if_pos hpar]
    · refine Or.inr ⟨n._parent, ?_, hpar, ?_⟩
      · unfold nodePrev
        rw [if_neg hpar]
      · rcases wf.parent_wf with hpe | ⟨jm, m, hji, hjm, hmid, hrk⟩
        · exact absurd hpe hpar
        · rw [← hmid, hI.id_eq jm m hjm]
          exact hg.2.2 jm
  obtain ⟨_, hval, hprev⟩ := mkKey_inj (levelName_colonFree e.levelIdx hidx)
    (levelName_colonFree (nodeRank n) wf.rank_lt) hPv (hT.title_P j n hjn)
    hwf1 hwf2 hkey'
  exact ⟨j, n, hjn, hres.symm, hrank.symm, hval.symm, hprev.symm⟩

/-- A level cell acceptable for `P`: absent, or its trimmed value
satisfies `P`. -/
def OptCellP (P : String → Prop) : Option String → Prop
  | none => True
  | some raw => P (jsTrim raw)

instance {P : String → Prop} [DecidablePred P] : ∀ o : Option String, Decidable (OptCellP P o)
  | none => .isTrue trivial
  | some raw => inferInstanceAs (Decidable (P (jsTrim raw)))

theorem rowValuesP_of_cells {P : String → Prop} {row : Row}
    (h : ∀ o ∈ row.levels, OptCellP P o) : RowValuesP P row := by
  intro idx raw hcell _
  have hoc : row.levels.get? idx = some (some raw) := by
    unfold rowCell at hcell
    rw [List.getD_eq_get?] at hcell
    cases hg : row.levels.get? idx with
    | none => rw [hg] at hcell; exact absurd hcell (by simp)
    | some o =>
      rw [hg] at hcell
      rw [show o = some raw from by simpa using hcell]
  exact h _ (List.mem_iff_get?.2 ⟨idx, hoc⟩)

/-- All level values of all the rows are colon-free once trimmed. -/
def RowsColonFree (rows : List Row) : Prop :=
  ∀ row ∈ rows, RowValuesP ColonFree row

theorem rowsColonFree_AB : RowsColonFree [rowA, rowAB] := by
  intro row hr
  rcases List.mem_cons.1 hr with h | hr2
  · subst h
    exact rowValuesP_of_cells (by decide)
  · rw [List.mem_singleton.1 hr2]
    exact rowValuesP_of_cells (by decide)

/-- C1 counterexample: with ids "a", "aa", ... the rows
`[{L1:"A"}, {L1:"A", L2:"B"}, {L2:"B:a"}]` make two distinct key triples
resolve to the same node: the L2 title `"B:a"` under no parent collides,
as a composite key string, with title `"B"` under the parent whose id is
`"a"` — so node identity is not exactly the deduplication key. -/
theorem C1_counterexample :
    ∃ e1 ∈ buildTrace genA [rowA, rowAB, rowColl],
      ∃ e2 ∈ buildTrace genA [rowA, rowAB, rowColl],
        evTriple e1 ≠ evTriple e2 ∧ e1.resolvedId = e2.resolvedId := by decide

/-- C1 amended: provided every trimmed level value is free of the `':'`
key separator, node identity is exactly the deduplication key
(level, trimmed title, parent-id-or-none): every resolution event yields
a node carrying exactly its triple, two events resolve to the same node
exactly when their triples agree, and every output node is resolved by
some event. -/
theorem C1_amended (gen : Nat → String) (rows : List Row) (hg : GoodGen gen)
    (hrows : RowsColonFree rows) :
    (∀ e ∈ buildTrace gen rows, ∃ n ∈ build gen rows,
      n._id = e.resolvedId ∧ nodeRank n = e.levelIdx ∧ n.title = e.value ∧
      n._parent = e.prevId.getD "") ∧
    (∀ e1 ∈ buildTrace gen rows, ∀ e2 ∈ buildTrace gen rows,
      (evTriple e1 = evTriple e2 ↔ e1.resolvedId = e2.resolvedId)) ∧
    (∀ n ∈ build gen rows, ∃ e ∈ buildTrace gen rows, e.resolvedId = n._id) := by
  obtain ⟨hI, hT⟩ := buildT_master gen hg (P := ColonFree) rows hrows
  rw [buildT_fst] at hI hT
  refine ⟨?_, ?_, ?_⟩
  · intro e he
    obtain ⟨i, n, hi, hid, hrank, hval, hprev⟩ := event_resolves hg hrows he
    exact ⟨n, List.mem_iff_get?.2 ⟨i, hi⟩, hid, hrank, hval,
      by rw [← hprev, nodePrev_getD]⟩
  · intro e1 he1 e2 he2
    constructor
    · intro htriple
      obtain ⟨hmem1, _⟩ := hT.ev_sound e1 he1
      obtain ⟨hmem2, _⟩ := hT.ev_sound e2 he2
      have l1 := lookup_mem_of_mem_nodup hI.key_nodup hmem1
      have l2 := lookup_mem_of_mem_nodup hI.key_nodup hmem2
      rw [mkKeyOfEvent_congr htriple] at l1
      rw [l1] at l2
      exact Option.some.inj l2
    · intro hres
      obtain ⟨i1, n1, hi1, hid1, hrank1, hval1, hprev1⟩ := event_resolves hg hrows he1
      obtain ⟨i2, n2, hi2, hid2, hrank2, hval2, hprev2⟩ := event_resolves hg hrows he2
      have hii : i1 = i2 := hg.1 (by
        rw [← hI.id_eq i1 n1 hi1, ← hI.id_eq i2 n2 hi2, hid1, hid2, hres])
      subst hii
      rw [hi1] at hi2
      injection hi2 with hnn
      subst hnn
      have h1 : e1.levelIdx = e2.levelIdx := by rw [← hrank1, ← hrank2]
      have h2 : e1.value = e2.value := by rw [← hval1, ← hval2]
      have h3 : e1.prevId = e2.prevId := by rw [← hprev1, ← hprev2]
      show (e1.levelIdx, e1.value, e1.prevId) = (e2.levelIdx, e2.value, e2.prevId)
      rw [h1, h2, h3]
  · intro n hn
    have hidmem : n._id ∈ (buildState gen rows).outputNodes.map (fun n => n._id) :=
      List.mem_map.2 ⟨n, hn, rfl⟩
    rw [hT.order_eq] at hidmem
    obtain ⟨e, hemem, heid⟩ := List.mem_map.1 (firstOccurrences_subset _ _ hidmem)
    exact ⟨e, hemem, heid⟩

/-- C1 witness: the amended statement at two colon-free rows. -/
theorem C1_amended_witness :
    (∀ e ∈ buildTrace genA [rowA, rowAB], ∃ n ∈ build genA [rowA, rowAB],
      n._id = e.resolvedId ∧ nodeRank n = e.levelIdx ∧ n.title = e.value ∧
      n._parent = e.prevId.getD "") ∧
    (∀ e1 ∈ buildTrace genA [rowA, rowAB], ∀ e2 ∈ buildTrace genA [rowA, rowAB],
      (evTriple e1 = evTriple e2 ↔ e1.resolvedId = e2.resolvedId)) ∧
    (∀ n ∈ build genA [rowA, rowAB], ∃ e ∈ buildTrace genA [rowA, rowAB],
      e.resolvedId = n._id) :=
  C1_amended genA [rowA, rowAB] goodGen_genA rowsColonFree_AB

/-- Two ids correspond when they are the same draw (below `c`) from the
two id sources. -/
def IdRel (gen1 gen2 : Nat → String) (c : Nat) (s t : String) : Prop :=
  ∃ i, i < c ∧ s = gen1 i ∧ t = gen2 i

/-- Parent references correspond: both empty, or corresponding ids. -/
def ParentRel (gen1 gen2 : Nat → String) (c : Nat) (s t : String) : Prop :=
  (s = "" ∧ t = "") ∨ IdRel gen1 gen2 c s t

/-- Nodes of the two runs correspond: equal except that every id is
renamed `gen1 i ↦ gen2 i`. -/
def NodeRel (gen1 gen2 : Nat → String) (c : Nat) (n m : Node) : Prop :=
  n.title = m.title ∧ n.levelFields = m.levelFields ∧ n.meta = m.meta ∧
  IdRel gen1 gen2 c n._id m._id ∧ ParentRel gen1 gen2 c n._parent m._parent ∧
  List.Forall₂ (IdRel gen1 gen2 c) n._child m._child

/-- `previousLevelId`s of the two runs correspond. -/
def PrevRel (gen1 gen2 : Nat → String) (c : Nat) (p q : Option String) : Prop :=
  (p = none ∧ q = none) ∨ ∃ i, i < c ∧ p = some (gen1 i) ∧ q = some (gen2 i)

/-- Composite keys of the two runs correspond: same level and value,
corresponding parent components. -/
def KeyRel (gen1 gen2 : Nat → String) (c : Nat) (k l : String) : Prop :=
  ∃ idx v p q, idx < hierarchyLevels.length ∧ ColonFree v ∧ v ≠ "" ∧
    PrevRel gen1 gen2 c p q ∧
    k = mkKey (hierarchyLevels.getD idx "") v p ∧ l = mkKey (hierarchyLevels.getD idx "") v q

/-- Dedup-index entries of the two runs correspond. -/
def EntryRel (gen1 gen2 : Nat → String) (c : Nat) (e f : String × String) : Prop :=
  KeyRel gen1 gen2 c e.1 f.1 ∧ IdRel gen1 gen2 c e.2 f.2

/-- The simulation relation between the states of the two runs. -/
structure SimRel (gen1 gen2 : Nat → String) (st1 st2 : BuildState) : Prop where
  counters : st1.counter = st2.counter
  nodes_rel : List.Forall₂ (NodeRel gen1 gen2 st1.counter) st1.outputNodes st2.outputNodes
  idMap_rel : List.Forall₂ (EntryRel gen1 gen2 st1.counter) st1.idMap st2.idMap

theorem idRel_mono {gen1 gen2 : Nat → String} {c c' : Nat} (hc : c ≤ c') {s t : String}
    (h : IdRel gen1 gen2 c s t) : IdRel gen1 gen2 c' s t := by
  obtain ⟨i, hic, h1, h2⟩ := h
  exact ⟨i, Nat.lt_of_lt_of_le hic hc, h1, h2⟩

theorem parentRel_mono {gen1 gen2 : Nat → String} {c c' : Nat} (hc : c ≤ c') {s t : String}
    (h : ParentRel gen1 gen2 c s t) : ParentRel gen1 gen2 c' s t := by
  rcases h with h | h
  · exact Or.inl h
  · exact Or.inr (idRel_mono hc h)

theorem nodeRel_mono {gen1 gen2 : Nat → String} {c c' : Nat} (hc : c ≤ c') {n m : Node}
    (h : NodeRel gen1 gen2 c n m) : NodeRel gen1 gen2 c' n m := by
  obtain ⟨h1, h2, h3, h4, h5, h6⟩ := h
  exact ⟨h1, h2, h3, idRel_mono hc h4, parentRel_mono hc h5, h6.imp (fun _ _ hr => idRel_mono hc hr)⟩

theorem prevRel_mono {gen1 gen2 : Nat → String} {c c' : Nat} (hc : c ≤ c')
    {p q : Option String} (h : PrevRel gen1 gen2 c p q) : PrevRel gen1 gen2 c' p q := by
  rcases h with h | ⟨i, hic, h1, h2⟩
  · exact Or.inl h
  · exact Or.inr ⟨i, Nat.lt_of_lt_of_le hic hc, h1, h2⟩

theorem keyRel_mono {gen1 gen2 : Nat → String} {c c' : Nat} (hc : c ≤ c') {k l : String}
    (h : KeyRel gen1 gen2 c k l) : KeyRel gen1 gen2 c' k l := by
  obtain ⟨idx, v, p, q, h1, h2, h3, h4, h5, h6⟩ := h
  exact ⟨idx, v, p, q, h1, h2, h3, prevRel_mono hc h4, h5, h6⟩

theorem entryRel_mono {gen1 gen2 : Nat → String} {c c' : Nat} (hc : c ≤ c')
    {e f : String × String} (h : EntryRel gen1 gen2 c e f) : EntryRel gen1 gen2 c' e f :=
  ⟨keyRel_mono hc h.1, idRel_mono hc h.2⟩

theorem idRel_functional_left {gen1 gen2 : Nat → String} {c : Nat}
    (hg1 : GoodGen gen1) {s t t' : String}
    (h1 : IdRel gen1 gen2 c s t) (h2 : IdRel gen1 gen2 c s t') : t = t' := by
  obtain ⟨i, _, hs1, ht1⟩ := h1
  obtain ⟨j, _, hs2, ht2⟩ := h2
  have : i = j := hg1.1 (by rw [← hs1, ← hs2])
  rw [ht1, ht2, this]

theorem idRel_functional_right {gen1 gen2 : Nat → String} {c : Nat}
    (hg2 : GoodGen gen2) {s s' t : String}
    (h1 : IdRel gen1 gen2 c s t) (h2 : IdRel gen1 gen2 c s' t) : s = s' := by
  obtain ⟨i, _, hs1, ht1⟩ := h1
  obtain ⟨j, _, hs2, ht2⟩ := h2
  have : i = j := hg2.1 (by rw [← ht1, ← ht2])
  rw [hs1, hs2, this]

theorem prevRel_wf_left {gen1 gen2 : Nat → String} {c : Nat} (hg1 : GoodGen gen1)
    {p q : Option String} (h : PrevRel gen1 gen2 c p q) : PrevWF p := by
  rcases h with ⟨h1, _⟩ | ⟨i, _, h1, _⟩
  · exact Or.inl h1
  · exact Or.inr ⟨gen1 i, h1, hg1.2.1 i, hg1.2.2 i⟩

theorem prevRel_wf_right {gen1 gen2 : Nat → String} {c : Nat} (hg2 : GoodGen gen2)
    {p q : Option String} (h : PrevRel gen1 gen2 c p q) : PrevWF q := by
  rcases h with ⟨_, h2⟩ | ⟨i, _, _, h2⟩
  · exact Or.inl h2
  · exact Or.inr ⟨gen2 i, h2, hg2.2.1 i, hg2.2.2 i⟩

theorem keyRel_eq_iff {gen1 gen2 : Nat → String} {c : Nat}
    (hg1 : GoodGen gen1) (hg2 : GoodGen gen2) {k1 k2 l1 l2 : String}
    (h : KeyRel gen1 gen2 c k1 k2) (h' : KeyRel gen1 gen2 c l1 l2) :
    k1 = l1 ↔ k2 = l2 := by
  obtain ⟨idx, v, p, q, hidx, hcf, hvne, hpq, hk1, hk2⟩ := h
  obtain ⟨idx', v', p', q', hidx', hcf', hvne', hpq', hl1, hl2⟩ := h'
  constructor
  · intro he
    rw [hk1, hl1] at he
    have hie : idx = idx' := mkKey_rank_inj hidx hidx' he
    subst hie
    obtain ⟨_, hv, hp⟩ := mkKey_inj (levelName_colonFree idx hidx)
      (levelName_colonFree idx hidx') hcf hcf'
      (prevRel_wf_left hg1 hpq) (prevRel_wf_left hg1 hpq') he
    have hq : q = q' := by
      rcases hpq with ⟨hp0, hq0⟩ | ⟨i, hic, hpi, hqi⟩ <;>
        rcases hpq' with ⟨hp0', hq0'⟩ | ⟨i', hic', hpi', hqi'⟩
      · rw [hq0, hq0']
      · rw [hp0, hpi'] at hp
        exact absurd hp (by simp)
      · rw [hpi, hp0'] at hp
        exact absurd hp (by simp)
      · rw [hpi, hpi'] at hp
        have hii : i = i' := hg1.1 (Option.some.inj hp)
        rw [hqi, hqi', hii]
    rw [hk2, hl2, hv, hq]
  · intro he
    rw [hk2, hl2] at he
    have hie : idx = idx' := mkKey_rank_inj hidx hidx' he
    subst hie
    obtain ⟨_, hv, hq⟩ := mkKey_inj (levelName_colonFree idx hidx)
      (levelName_colonFree idx hidx') hcf hcf'
      (prevRel_wf_right hg2 hpq) (prevRel_wf_right hg2 hpq') he
    have hp : p = p' := by
      rcases hpq with ⟨hp0, hq0⟩ | ⟨i, hic, hpi, hqi⟩ <;>
        rcases hpq' with ⟨hp0', hq0'⟩ | ⟨i', hic', hpi', hqi'⟩
      · rw [hp0, hp0']
      · rw [hq0, hqi'] at hq
        exact absurd hq (by simp)
      · rw [hqi, hq0'] at hq
        exact absurd hq (by simp)
      · rw [hqi, hqi'] at hq
        have hii : i = i' := hg2.1 (Option.some.inj hq)
        rw [hpi, hpi', hii]
    rw [hk1, hl1, hv, hp]

theorem lookup_rel {gen1 gen2 : Nat → String} {c : Nat}
    (hg1 : GoodGen gen1) (hg2 : GoodGen gen2) {l1 l2 : List (String × String)}
    (hrel : List.Forall₂ (EntryRel gen1 gen2 c) l1 l2) {k1 k2 : String}
    (hk : KeyRel gen1 gen2 c k1 k2) :
    (l1.lookup k1 = none ∧ l2.lookup k2 = none) ∨
    ∃ v1 v2, l1.lookup k1 = some v1 ∧ l2.lookup k2 = some v2 ∧ IdRel gen1 gen2 c v1 v2 := by
  induction hrel with
  | nil => exact Or.inl ⟨rfl, rfl⟩
  | cons hef hrest ih =>
    rename_i e f t1 t2
    obtain ⟨hkey, hid⟩ := hef
    rw [show e = (e.1, e.2) from rfl, List.lookup_cons,
      show f = (f.1, f.2) from rfl, List.lookup_cons]
    have hiff := keyRel_eq_iff hg1 hg2 hk hkey
    by_cases he : k1 = e.1
    · have hf : k2 = f.1 := hiff.1 he
      have hbe : (k1 == e.1) = true := beq_iff_eq.2 he
      have hbf : (k2 == f.1) = true := beq_iff_eq.2 hf
      simp only [hbe, hbf]
      exact Or.inr ⟨e.2, f.2, rfl, rfl, hid⟩
    · have hf : ¬ k2 = f.1 := fun hx => he (hiff.2 hx)
      have hbe : (k1 == e.1) = false := by simpa using he
      have hbf : (k2 == f.1) = false := by simpa using hf
      simp only [hbe, hbf]
      exact ih

theorem forall2_get? {α β : Type} {R : α → β → Prop} :
    ∀ {l1 : List α} {l2 : List β}, List.Forall₂ R l1 l2 → ∀ i,
      (l1.get? i = none ∧ l2.get? i = none) ∨
      ∃ a b, l1.get? i = some a ∧ l2.get? i = some b ∧ R a b := by
  intro l1 l2 h
  induction h with
  | nil => intro i; exact Or.inl ⟨rfl, rfl⟩
  | cons hab hrest ih =>
    intro i
    cases i with
    | zero => exact Or.inr ⟨_, _, rfl, rfl, hab⟩
    | succ i' => exact ih i'

theorem forall2_map_map {α β : Type} {R : α → β → Prop} {f : α → α} {g : β → β}
    {l1 : List α} {l2 : List β} (h : List.Forall₂ R l1 l2)
    (hf : ∀ a b, R a b → R (f a) (g b)) :
    List.Forall₂ R (l1.map f) (l2.map g) := by
  induction h with
  | nil => exact List.Forall₂.nil
  | cons hab hrest ih => exact List.Forall₂.cons (hf _ _ hab) ih

theorem rel_mem_iff {gen1 gen2 : Nat → String} {c : Nat}
    (hg1 : GoodGen gen1) (hg2 : GoodGen gen2) {l1 l2 : List String}
    (h : List.Forall₂ (IdRel gen1 gen2 c) l1 l2) {s t : String}
    (hst : IdRel gen1 gen2 c s t) : s ∈ l1 ↔ t ∈ l2 := by
  induction h with
  | nil => simp
  | cons hab hrest ih =>
    rename_i a b t1 t2
    simp only [List.mem_cons]
    constructor
    · rintro (hsa | hsl)
      · subst hsa
        exact Or.inl (idRel_functional_left hg1 hst hab)
      · exact Or.inr (ih.1 hsl)
    · rintro (htb | htl)
      · subst htb
        exact Or.inl (idRel_functional_right hg2 hst hab)
      · exact Or.inr (ih.2 htl)

theorem contains_iff_mem {l : List String} {s : String} : l.contains s = true ↔ s ∈ l := by
  rw [List.contains_iff_exists_mem_beq]
  constructor
  · rintro ⟨a, ha, hba⟩
    rw [show s = a from by simpa using hba]
    exact ha
  · intro hs
    exact ⟨s, hs, by simp⟩

theorem forall2_append {α β : Type} {R : α → β → Prop} {l1 u1 : List α} {l2 u2 : List β}
    (h : List.Forall₂ R l1 l2) (h' : List.Forall₂ R u1 u2) :
    List.Forall₂ R (l1 ++ u1) (l2 ++ u2) := by
  induction h with
  | nil => exact h'
  | cons hab _ ih => exact List.Forall₂.cons hab ih

theorem nodeRel_id_beq_iff {gen1 gen2 : Nat → String} {c : Nat}
    (hg1 : GoodGen gen1) (hg2 : GoodGen gen2) {n m : Node}
    (hnm : NodeRel gen1 gen2 c n m) {pid1 pid2 : String}
    (hp : IdRel gen1 gen2 c pid1 pid2) :
    (n._id == pid1) = (m._id == pid2) := by
  by_cases he : n._id = pid1
  · have hf : m._id = pid2 := by
      rw [← he] at hp
      exact idRel_functional_left hg1 hnm.2.2.2.1 hp
    rw [beq_iff_eq.2 he, beq_iff_eq.2 hf]
  · have hf : ¬ m._id = pid2 := fun hx => by
      rw [← hx] at hp
      exact he (idRel_functional_right hg2 hnm.2.2.2.1 hp)
    rw [show (n._id == pid1) = false from by simpa using he,
      show (m._id == pid2) = false from by simpa using hf]

theorem find?_rel {gen1 gen2 : Nat → String} {c : Nat}
    (hg1 : GoodGen gen1) (hg2 : GoodGen gen2) {ns ms : List Node}
    (hrel : List.Forall₂ (NodeRel gen1 gen2 c) ns ms) {pid1 pid2 : String}
    (hp : IdRel gen1 gen2 c pid1 pid2) :
    (ns.find? (fun n => n._id == pid1) = none ∧ ms.find? (fun n => n._id == pid2) = none) ∨
    ∃ n m, ns.find? (fun n => n._id == pid1) = some n ∧
      ms.find? (fun n => n._id == pid2) = some m ∧ NodeRel gen1 gen2 c n m := by
  induction hrel with
  | nil => exact Or.inl ⟨rfl, rfl⟩
  | cons hab hrest ih =>
    rename_i a b t1 t2
    have hbeq := nodeRel_id_beq_iff hg1 hg2 hab hp
    cases hcond : (a._id == pid1) with
    | true =>
      simp only [List.find?, ← hbeq, hcond]
      exact Or.inr ⟨a, b, rfl, rfl, hab⟩
    | false =>
      simp only [List.find?, ← hbeq, hcond]
      exact ih

theorem linkChild_rel {gen1 gen2 : Nat → String} {c : Nat}
    (hg1 : GoodGen gen1) (hg2 : GoodGen gen2) {ns ms : List Node}
    (hrel : List.Forall₂ (NodeRel gen1 gen2 c) ns ms) {pid1 pid2 cid1 cid2 : String}
    (hp : IdRel gen1 gen2 c pid1 pid2) (hc : IdRel gen1 gen2 c cid1 cid2) :
    List.Forall₂ (NodeRel gen1 gen2 c) (linkChild ns pid1 cid1) (linkChild ms pid2 cid2) := by
  unfold linkChild
  rcases find?_rel hg1 hg2 hrel hp with ⟨hf1, hf2⟩ | ⟨pn, pm, hf1, hf2, hpnm⟩
  · rw [hf1, hf2]
    exact hrel
  · rw [hf1, hf2]
    dsimp only
    have hciff : pn._child.contains cid1 = pm._child.contains cid2 := by
      by_cases hmem : cid1 ∈ pn._child
      · rw [contains_iff_mem.2 hmem,
          (contains_iff_mem (l := pm._child)).2
            ((rel_mem_iff hg1 hg2 hpnm.2.2.2.2.2 hc).1 hmem)]
      · have hmem2 : cid2 ∉ pm._child := fun hx =>
          hmem ((rel_mem_iff hg1 hg2 hpnm.2.2.2.2.2 hc).2 hx)
        rw [show pn._child.contains cid1 = false from by
            cases hcc : pn._child.contains cid1 with
            | false => rfl
            | true => exact absurd (contains_iff_mem.1 hcc) hmem,
          show pm._child.contains cid2 = false from by
            cases hcc : pm._child.contains cid2 with
            | false => rfl
            | true => exact absurd (contains_iff_mem.1 hcc) hmem2]
    cases hcc : pn._child.contains cid1 with
    | true =>
      rw [if_pos rfl, if_pos (hciff.symm.trans hcc)]
      exact hrel
    | false =>
      rw [if_neg (fun hx => Bool.false_ne_true hx),
        if_neg (by rw [hciff.symm.trans hcc]; exact fun hx => Bool.false_ne_true hx)]
      refine forall2_map_map hrel ?_
      intro n m hnm
      have hbeq := nodeRel_id_beq_iff hg1 hg2 hnm hp
      cases hcond : (n._id == pid1) with
      | true =>
        rw [if_pos rfl, if_pos (hbeq.symm.trans hcond)]
        obtain ⟨h1, h2, h3, h4, h5, h6⟩ := hnm
        exact ⟨h1, h2, h3, h4, h5,
          forall2_append h6 (List.Forall₂.cons hc List.Forall₂.nil)⟩
      | false =>
        rw [if_neg (fun hx => Bool.false_ne_true hx),
          if_neg (by rw [hbeq.symm.trans hcond]; exact fun hx => Bool.false_ne_true hx)]
        exact hnm

theorem sim_step {gen1 gen2 : Nat → String} (hg1 : GoodGen gen1) (hg2 : GoodGen gen2)
    {row : Row} {st1 st2 : BuildState} {p q : Option String} {idx : Nat}
    (hidx : idx < hierarchyLevels.length) (hrow : RowValuesP ColonFree row)
    (hS : SimRel gen1 gen2 st1 st2) (hpq : PrevRel gen1 gen2 st1.counter p q) :
    SimRel gen1 gen2 (processLevel gen1 row st1 p idx (hierarchyLevels.getD idx "")).1
        (processLevel gen2 row st2 q idx (hierarchyLevels.getD idx "")).1 ∧
    PrevRel gen1 gen2 (processLevel gen1 row st1 p idx (hierarchyLevels.getD idx "")).1.counter
      (processLevel gen1 row st1 p idx (hierarchyLevels.getD idx "")).2
      (processLevel gen2 row st2 q idx (hierarchyLevels.getD idx "")).2 := by
  cases hcell : rowCell row idx with
  | none =>
    rw [@processLevel_none gen1 row st1 p idx (hierarchyLevels.getD idx "") hcell,
      @processLevel_none gen2 row st2 q idx (hierarchyLevels.getD idx "") hcell]
    exact ⟨hS, hpq⟩
  | some raw =>
    by_cases h2 : jsTrim raw = ""
    · rw [@processLevel_blank gen1 row st1 p idx (hierarchyLevels.getD idx "") raw hcell h2,
        @processLevel_blank gen2 row st2 q idx (hierarchyLevels.getD idx "") raw hcell h2]
      exact ⟨hS, hpq⟩
    · have hcf : ColonFree (jsTrim raw) := hrow idx raw hcell h2
      have hk : KeyRel gen1 gen2 st1.counter
          (mkKey (hierarchyLevels.getD idx "") (jsTrim raw) p)
          (mkKey (hierarchyLevels.getD idx "") (jsTrim raw) q) :=
        ⟨idx, jsTrim raw, p, q, hidx, hcf, h2, hpq, rfl, rfl⟩
      rcases lookup_rel hg1 hg2 hS.idMap_rel hk with ⟨hl1, hl2⟩ | ⟨v1, v2, hl1, hl2, hv⟩
      · rw [@processLevel_miss gen1 row st1 p idx (hierarchyLevels.getD idx "") raw hcell h2 hl1,
          @processLevel_miss gen2 row st2 q idx (hierarchyLevels.getD idx "") raw hcell h2 hl2]
        have hcnt : st2.counter = st1.counter := hS.counters.symm
        have hnode : NodeRel gen1 gen2 (st1.counter + 1)
            (mkNode (gen1 st1.counter) (jsTrim raw) (hierarchyLevels.getD idx "") p row)
            (mkNode (gen2 st1.counter) (jsTrim raw) (hierarchyLevels.getD idx "") q row) := by
          refine ⟨rfl, rfl, rfl, ⟨st1.counter, Nat.lt_succ_self _, rfl, rfl⟩, ?_,
            List.Forall₂.nil⟩
          rcases hpq with ⟨hp0, hq0⟩ | ⟨i, hic, hp1, hq1⟩
          · rw [hp0, hq0]
            exact Or.inl ⟨rfl, rfl⟩
          · rw [hp1, hq1]
            exact Or.inr ⟨i, Nat.lt_succ_of_lt hic, rfl, rfl⟩
        have hbase : List.Forall₂ (NodeRel gen1 gen2 (st1.counter + 1))
            (st1.outputNodes ++
              [mkNode (gen1 st1.counter) (jsTrim raw) (hierarchyLevels.getD idx "") p row])
            (st2.outputNodes ++
              [mkNode (gen2 st1.counter) (jsTrim raw) (hierarchyLevels.getD idx "") q row]) :=
          forall2_append (hS.nodes_rel.imp (fun _ _ hr => nodeRel_mono (Nat.le_succ _) hr))
            (List.Forall₂.cons hnode List.Forall₂.nil)
        have hnodes : List.Forall₂ (NodeRel gen1 gen2 (st1.counter + 1))
            (stCreate gen1 row st1 p (jsTrim raw) (hierarchyLevels.getD idx "")).outputNodes
            (stCreate gen2 row st2 q (jsTrim raw) (hierarchyLevels.getD idx "")).outputNodes := by
          simp only [stCreate]
          rw [hcnt]
          rcases hpq with ⟨hp0, hq0⟩ | ⟨i, hic, hp1, hq1⟩
          · rw [hp0, hq0] at hbase ⊢
            rw [if_neg (by decide : ¬ (jsTruthy (none : Option String) = true)),
              if_neg (by decide : ¬ (jsTruthy (none : Option String) = true))]
            exact hbase
          · rw [hp1, hq1] at hbase ⊢
            have ht1 : jsTruthy (some (gen1 i)) = true := by
              simp [jsTruthy, hg1.2.1 i]
            have ht2 : jsTruthy (some (gen2 i)) = true := by
              simp [jsTruthy, hg2.2.1 i]
            rw [if_pos ht1, if_pos ht2]
            exact linkChild_rel hg1 hg2 hbase
              ⟨i, Nat.lt_succ_of_lt hic, rfl, rfl⟩
              ⟨st1.counter, Nat.lt_succ_self _, rfl, rfl⟩
        have hmap : List.Forall₂ (EntryRel gen1 gen2 (st1.counter + 1))
            ((mkKey (hierarchyLevels.getD idx "") (jsTrim raw) p, gen1 st1.counter) :: st1.idMap)
            ((mkKey (hierarchyLevels.getD idx "") (jsTrim raw) q, gen2 st1.counter) :: st2.idMap) :=
          List.Forall₂.cons
            ⟨keyRel_mono (Nat.le_succ _) hk, ⟨st1.counter, Nat.lt_succ_self _, rfl, rfl⟩⟩
            (hS.idMap_rel.imp (fun _ _ hr => entryRel_mono (Nat.le_succ _) hr))
        refine ⟨⟨?_, hnodes, ?_⟩, ?_⟩
        · show st1.counter + 1 = st2.counter + 1
          rw [hcnt]
        · show List.Forall₂ (EntryRel gen1 gen2 (st1.counter + 1)) _ _
          simp only [stCreate]
          rw [hcnt]
          exact hmap
        · exact Or.inr ⟨st1.counter, Nat.lt_succ_self _, rfl, by rw [hcnt]⟩
      · rw [@processLevel_hit gen1 row st1 p idx (hierarchyLevels.getD idx "") raw v1 hcell h2 hl1,
          @processLevel_hit gen2 row st2 q idx (hierarchyLevels.getD idx "") raw v2 hcell h2 hl2]
        obtain ⟨i, hic, hv1, hv2⟩ := hv
        exact ⟨hS, Or.inr ⟨i, hic, by rw [hv1], by rw [hv2]⟩⟩

theorem sim_row {gen1 gen2 : Nat → String} (hg1 : GoodGen gen1) (hg2 : GoodGen gen2)
    {row : Row} {st1 st2 : BuildState} (hrow : RowValuesP ColonFree row)
    (hS : SimRel gen1 gen2 st1 st2) :
    SimRel gen1 gen2 (processRow gen1 st1 row) (processRow gen2 st2 row) := by
  rw [processRow_eq, processRow_eq]
  have s1 := @sim_step gen1 gen2 hg1 hg2 row st1 st2 none none 0 (by decide) hrow hS
    (Or.inl ⟨rfl, rfl⟩)
  have s2 := @sim_step gen1 gen2 hg1 hg2 row _ _ _ _ 1 (by decide) hrow s1.1 s1.2
  have s3 := @sim_step gen1 gen2 hg1 hg2 row _ _ _ _ 2 (by decide) hrow s2.1 s2.2
  have s4 := @sim_step gen1 gen2 hg1 hg2 row _ _ _ _ 3 (by decide) hrow s3.1 s3.2
  have s5 := @sim_step gen1 gen2 hg1 hg2 row _ _ _ _ 4 (by decide) hrow s4.1 s4.2
  exact s5.1

theorem sim_rows {gen1 gen2 : Nat → String} (hg1 : GoodGen gen1) (hg2 : GoodGen gen2)
    (rows : List Row) (hrows : RowsColonFree rows) :
    SimRel gen1 gen2 (buildState gen1 rows) (buildState gen2 rows) := by
  unfold buildState
  induction rows using List.reverseRecOn with
  | nil => exact ⟨rfl, List.Forall₂.nil, List.Forall₂.nil⟩
  | append_singleton t r ih =>
    simp only [List.foldl_append, List.foldl_cons, List.foldl_nil]
    exact sim_row hg1 hg2
      (hrows r (List.mem_append.2 (Or.inr (List.mem_singleton.2 rfl))))
      (ih (fun row hr => hrows row (List.mem_append.2 (Or.inl hr))))

/-- C8 counterexample: two runs over the same rows
`[{L1:"A"}, {L1:"A", L2:"B"}, {L2:"B:a"}]`, differing only in the ids the
generator draws (`"a", "aa", ...` versus `"b", "bb", ...`), produce node
sequences of different lengths — the structure itself depends on the drawn
ids, because a title containing `':'` can collide with a composite key
that embeds a generated id. -/
theorem C8_counterexample :
    (build genA [rowA, rowAB, rowColl]).length = 2 ∧
    (build genB [rowA, rowAB, rowColl]).length = 3 := by decide

/-- C8 amended: provided every trimmed level value is free of the `':'`
key separator, two runs over the same row sequence with any two injective,
non-empty, colon-free id generators produce node sequences that correspond
element by element: equal title, hierarchy fields and metadata, and ids,
parent references and child lists that agree up to the consistent renaming
`gen1 i ↦ gen2 i` of the freshly generated ids. -/
theorem C8_amended (gen1 gen2 : Nat → String) (rows : List Row) (hg1 : GoodGen gen1)
    (hg2 : GoodGen gen2) (hrows : RowsColonFree rows) :
    List.Forall₂ (NodeRel gen1 gen2 (buildState gen1 rows).counter)
      (build gen1 rows) (build gen2 rows) :=
  (sim_rows hg1 hg2 rows hrows).nodes_rel

/-- C8 witness: the amended determinism statement at the colon-free rows
`[{L1:"A"}, {L1:"A", L2:"B"}]` and the two concrete generators. -/
theorem C8_amended_witness :
    List.Forall₂ (NodeRel genA genB (buildState genA [rowA, rowAB]).counter)
      (build genA [rowA, rowAB]) (build genB [rowA, rowAB]) :=
  C8_amended genA genB [rowA, rowAB] goodGen_genA goodGen_genB rowsColonFree_AB
